import Mathlib

/-!
Verification of the atom-wiki markdown-to-HTML converter
(`src/atomwiki/cli.py`, class `MarkdownToHTMLConverter`).

The pipeline functions of the converter are embedded shallowly:

* text is modelled as `String` / `List Char` (Python `str.split('\n')`,
  `str.strip()`, `str.lower()`, `str.title()`, `str.replace` are given
  faithful executable models, named `py...`),
* filesystem paths are modelled as lists of path components
  (`pathlib.PurePath.parts`), and `str(path)` as the components joined
  by the separator `/`,
* the external collaborators (PyYAML's `safe_load` and the
  `markdown` rendering library) are parameters of the embedding:
  a YAML parser is an arbitrary function `String → Option Frontmatter`
  and a markdown renderer an arbitrary function `String → List HtmlAtom`,
* exceptions are modelled with `Except`; the functions of the converter
  that cannot raise are total Lean functions.
-/

namespace AtomWiki

/-! ## Definitions -/

/-! ### Basic character-list utilities (Python string primitives) -/

/-- Python `str.split(sep)` for a one-character separator, on char lists:
splits at every occurrence of `c`, keeping empty segments, and always
returns at least one segment. -/
def splitCh (c : Char) : List Char → List (List Char)
  | [] => [[]]
  | x :: xs =>
    if x = c then [] :: splitCh c xs
    else
      match splitCh c xs with
      | s :: rest => (x :: s) :: rest
      | [] => [[x]]

/-- Python `sep.join(...)` for a one-character separator, on char lists. -/
def joinCh (c : Char) : List (List Char) → List Char
  | [] => []
  | [l] => l
  | l :: ls => l ++ c :: joinCh c ls

/-- Python `str.startswith` on char lists. -/
def pyStartsWith : List Char → List Char → Bool
  | [], _ => true
  | _ :: _, [] => false
  | a :: ps, b :: ls => a == b && pyStartsWith ps ls

/-! ### Code fence normalization (`normalize_code_fence_indentation`, cli.py 145-184) -/

/-- Length of the leading run of spaces of a line
(the group `([ ]*)` of the regex `^([ ]*)` + three backticks). -/
def leadingSpaces (l : List Char) : Nat :=
  (l.takeWhile (fun c => c = ' ')).length

/-- Does the line match the opening/closing fence regex: optional leading
spaces followed immediately by three backticks. -/
def isFence (l : List Char) : Bool :=
  pyStartsWith "```".data (l.dropWhile (fun c => c = ' '))

/-- Python `line[k:] if line.startswith(' ' * k) else line`. -/
def stripIndent (k : Nat) (l : List Char) : List Char :=
  if pyStartsWith (List.replicate k ' ') l then l.drop k else l

/-- The line loop of `normalize_code_fence_indentation`: state is
(`in_code_fence`, `fence_indent`).  An opening fence is de-indented by its
own indent; a closing fence and the lines inside the fence are de-indented
by the recorded `fence_indent` when they start with that many spaces. -/
def normFenceLines : Bool → Nat → List (List Char) → List (List Char)
  | _, _, [] => []
  | inFence, k, l :: ls =>
    if isFence l then
      if inFence then stripIndent k l :: normFenceLines false 0 ls
      else l.drop (leadingSpaces l) :: normFenceLines true (leadingSpaces l) ls
    else
      if inFence then stripIndent k l :: normFenceLines true k ls
      else l :: normFenceLines false k ls

/-- `normalize_code_fence_indentation`: split on newlines, run the fence
scan, join back with newlines. -/
def normalizeCodeFenceIndentation (s : String) : String :=
  (joinCh '\n' (normFenceLines false 0 (splitCh '\n' s.data))).asString

/-- Scan deciding that every opening fence of the body already has zero
indentation (state is `in_code_fence`). -/
def fencesUnindented : Bool → List (List Char) → Bool
  | _, [] => true
  | inFence, l :: ls =>
    if isFence l then
      if inFence then fencesUnindented false ls
      else (leadingSpaces l == 0) && fencesUnindented true ls
    else fencesUnindented inFence ls

/-! ### Heading id namespacing (`prefix_heading_ids`, cli.py 229-242) -/

/-- The id rewriting of `replace_id`: the Python f-string
`f"section-\x7bsection_index\x7d-\x7bold_id\x7d"`, with the ordinal printed
in decimal (`Nat.repr`). -/
def newHeadingId (sectionIndex : Nat) (oldId : String) : String :=
  "section-" ++ Nat.repr sectionIndex ++ "-" ++ oldId

/-! ### Paths and the document loader (`find_markdown_files`, cli.py 65-101) -/

/-- A filesystem path relative to the input folder, as its
`pathlib.PurePath.parts` component list. -/
abbrev RelPath := List String

/-- `str(path)` for a relative path: components joined with `/`
(`pathlib` renders the empty relative path as `"."`). -/
def pathStr (p : RelPath) : String :=
  if p.isEmpty then "." else (joinCh '/' (p.map String.data)).asString

/-- The `name` of a path: its final component (empty for the empty path). -/
def fileName (p : RelPath) : String := p.getLast?.getD ""

/-- Python `str.lower()`. -/
def pyLower (s : String) : String := ⟨s.data.map Char.toLower⟩

/-- Python `str.endswith`. -/
def pyEndsWith (suffix s : String) : Bool :=
  pyStartsWith suffix.data.reverse s.data.reverse

/-- Does `pathlib.rglob("*.md")` yield this file: its name matches the
glob pattern, that is, ends with `.md`. -/
def isMdName (name : String) : Bool := pyEndsWith ".md" name

/-- `file.name.lower() in ['index.md', 'index.markdown']`. -/
def isIndexName (name : String) : Bool :=
  pyLower name == "index.md" || pyLower name == "index.markdown"

/-- The overwriting assignment `index_file = file` performed once per
matching file of the loop: keeps the last match in discovery order. -/
def lastMatch (p : α → Bool) (l : List α) : Option α :=
  l.foldl (fun acc f => if p f then some f else acc) none

/-- Sort key of `other_files.sort(key=lambda x: str(x))`: the string of the
full path `input_folder / rel`. -/
def sortKey (root : String) (p : RelPath) : String := root ++ "/" ++ pathStr p

/-- The comparison used to model Python's stable sort by `sortKey`. -/
def pathLe (root : String) (p q : RelPath) : Prop :=
  sortKey root p ≤ sortKey root q

instance (root : String) : DecidableRel (pathLe root) := fun p q =>
  inferInstanceAs (Decidable (sortKey root p ≤ sortKey root q))

instance (root : String) : IsTotal RelPath (pathLe root) :=
  ⟨fun p q => le_total (sortKey root p) (sortKey root q)⟩

instance (root : String) : IsTrans RelPath (pathLe root) :=
  ⟨fun _ _ _ h1 h2 => le_trans h1 h2⟩

inductive LoadErr where
  | rootNotFound
  | noMarkdownFiles
  | indexMissing
deriving DecidableEq, Repr

/-- `find_markdown_files`: the input folder is modelled by its existence
flag and the discovery-ordered list of the regular files under it (as
relative paths); `root` is the string of the input folder path used by the
sort key `str(x)`. -/
def findMarkdownFiles (root : String) (rootExists : Bool)
    (files : List RelPath) : Except LoadErr (List RelPath) :=
  if !rootExists then .error .rootNotFound
  else if (files.filter (fun p => isMdName (fileName p))).isEmpty then
    .error .noMarkdownFiles
  else
    match lastMatch (fun p => isIndexName (fileName p))
        (files.filter (fun p => isMdName (fileName p))) with
    | none => .error .indexMissing
    | some idx =>
      .ok (idx :: List.insertionSort (pathLe root)
        ((files.filter (fun p => isMdName (fileName p))).filter
          (fun p => !isIndexName (fileName p))))

/-- Wellformedness of a relative path of a real file: at least one
component, every component a nonempty string without separators. -/
def wfPath (p : RelPath) : Prop :=
  p ≠ [] ∧ ∀ s ∈ p, s ≠ "" ∧ ('/' : Char) ∉ s.data

instance (p : RelPath) : Decidable (wfPath p) := by
  unfold wfPath
  infer_instance

/-! ### Frontmatter parsing (`parse_frontmatter`, cli.py 103-134) -/

/-- The scalar universe used to model values produced by the external YAML
parser, restricted to the shapes exercised by the converter: strings,
lists of strings (tag lists) and integers (non-iterable scalars). -/
inductive Yaml where
  | str (s : String)
  | strList (l : List String)
  | int (n : Int)
deriving DecidableEq, Repr

/-- A parsed frontmatter block: an insertion-ordered string-keyed mapping. -/
abbrev Frontmatter := List (String × Yaml)

/-- A model of `yaml.safe_load` (followed by `or {}`): an arbitrary
function; `none` models a raised `yaml.YAMLError`. -/
abbrev YamlParser := String → Option Frontmatter

/-- Python whitespace (the default `str.strip` set). -/
def isPyWs (c : Char) : Bool :=
  c = ' ' || c = '\t' || c = '\n' || c = '\r' || c = '\x0b' || c = '\x0c'

/-- Python `str.strip()` on char lists. -/
def pyStripL (l : List Char) : List Char :=
  ((l.dropWhile isPyWs).reverse.dropWhile isPyWs).reverse

/-- Python `str.strip()`. -/
def pyStrip (s : String) : String := ⟨pyStripL s.data⟩

/-- The loop `for i in range(1, len(lines))` looking for the first line
whose strip is exactly `---`; called on `lines.tail` with start index 1. -/
def firstDashIdx : Nat → List (List Char) → Option Nat
  | _, [] => none
  | i, l :: ls => if pyStripL l = "---".data then some i else firstDashIdx (i + 1) ls

/-- `content.strip().split('\n')`. -/
def fmLines (content : String) : List (List Char) :=
  splitCh '\n' (pyStripL content.data)

/-- `'\n'.join(lines[1:end_index])`. -/
def fmSectionOf (content : String) (endIdx : Nat) : String :=
  (joinCh '\n' (((fmLines content).drop 1).take (endIdx - 1))).asString

/-- `'\n'.join(lines[end_index + 1:]).strip()`. -/
def fmBodyOf (content : String) (endIdx : Nat) : String :=
  ⟨pyStripL (joinCh '\n' ((fmLines content).drop (endIdx + 1)))⟩

/-- `parse_frontmatter`: returns (frontmatter, remaining body, warnings).
`end_index` is never 0 (the search starts at 1), so Python's falsy test
`if end_index:` is modelled by the `Option`.  A parse failure yields an
empty mapping and a warning; a missing closing delimiter falls through to
`return {}, content` with no warning. -/
def parseFrontmatter (yamlParse : YamlParser) (content : String) :
    Frontmatter × String × List String :=
  if pyStartsWith "---".data (pyStripL content.data) then
    if (fmLines content).length > 1 then
      match firstDashIdx 1 (fmLines content).tail with
      | some endIdx =>
        match yamlParse (fmSectionOf content endIdx) with
        | some fm => (fm, fmBodyOf content endIdx, [])
        | none => ([], fmBodyOf content endIdx,
            ["Warning: Failed to parse frontmatter YAML"])
      | none => ([], content, [])
    else ([], content, [])
  else ([], content, [])

/-! ### Cross-document link resolution
(`process_internal_links` cli.py 346-368, `find_file_index_by_path`
cli.py 370-411)

`pathlib` paths are modelled by their component lists plus an
absolute-path flag; `Path.resolve()` is modelled as joining onto the
process working directory `cwd` (an absolute component list) and
eliminating `..` components; `input_folder.resolve()` is the absolute
component list `rootAbs` of the input folder. -/

/-- A `pathlib.PurePosixPath`: absolute flag plus normalized components
(no empty and no `.` components; `..` components are kept). -/
structure PyPath where
  isAbs : Bool
  parts : List String
deriving DecidableEq, Repr

/-- The components of a path string, as `pathlib` normalizes them. -/
def pathParts (s : String) : List String :=
  ((splitCh '/' s.data).map (fun l => (⟨l⟩ : String))).filter
    (fun t => t ≠ "" && t ≠ ".")

/-- Whether a path string is absolute. -/
def strIsAbs (s : String) : Bool := pyStartsWith "/".data s.data

/-- `current_dir / link`: an absolute right operand discards the left. -/
def pyDiv (curParts : List String) (href : String) : PyPath :=
  if strIsAbs href then ⟨true, pathParts href⟩
  else ⟨false, curParts ++ pathParts href⟩

/-- One step of `..`-elimination in `Path.resolve()` (at the filesystem
root, `/..` stays at the root). -/
def normAbsStep (acc : List String) (part : String) : List String :=
  if part = ".." then acc.dropLast else acc ++ [part]

/-- Eliminate `..` components of an absolute component list. -/
def normAbs (parts : List String) : List String :=
  parts.foldl normAbsStep []

/-- `Path.resolve()`: relative paths are resolved against `cwd`. -/
def pyResolve (cwd : List String) (p : PyPath) : List String :=
  if p.isAbs then normAbs p.parts else normAbs (cwd ++ p.parts)

/-- Generic boolean prefix test on component lists. -/
def listPre [DecidableEq α] : List α → List α → Bool
  | [], _ => true
  | _ :: _, [] => false
  | a :: ps, b :: ls => decide (a = b) && listPre ps ls

/-- `target.relative_to(root)`: defined exactly when `root` is a
component-prefix of `target`. -/
def relTo (target root : List String) : Option (List String) :=
  if listPre root target then some (target.drop root.length) else none

/-- `str(...).replace('\\', '/')`. -/
def slashify (s : String) : String :=
  ⟨s.data.map (fun c => if c = '\\' then '/' else c)⟩

/-- `str()` of a `pathlib` path. -/
def pyPathStr (p : PyPath) : String :=
  if p.isAbs then "/" ++ (joinCh '/' (p.parts.map String.data)).asString
  else pathStr p.parts

/-- `Path(link).name`: the final component, `""` if there is none. -/
def pyName (s : String) : String := (pathParts s).getLast?.getD ""

/-- Python `link_path.lstrip('./')`: strips every leading `.` and `/`. -/
def lstripDotSlash (s : String) : String :=
  ⟨s.data.dropWhile (fun c => c = '.' || c = '/')⟩

/-- The loop `for i, file_path in enumerate(...)` returning the first
index whose entry satisfies the predicate. -/
def firstIdxFrom (p : α → Bool) : Nat → List α → Option Nat
  | _, [] => none
  | i, x :: xs => if p x then some i else firstIdxFrom p (i + 1) xs

/-- The target of `(current_dir / ...)` per the three branches of
`find_file_index_by_path` (the `./` branch joins the `lstrip('./')`-ed
link). -/
def linkTarget (currentDir : List String) (linkPath : String) : PyPath :=
  if pyStartsWith "../".data linkPath.data then pyDiv currentDir linkPath
  else if pyStartsWith "./".data linkPath.data then
    pyDiv currentDir (lstripDotSlash linkPath)
  else pyDiv currentDir linkPath

/-- The string the resolved target is compared against every document's
relative path: `target_rel` of the `try` branch when `relative_to`
succeeds, else (the `except ValueError` branch) the unresolved
`Path(str(current_dir / link_path).replace('\\', '/'))`. -/
def linkTargetRelStr (cwd rootAbs : List String) (currentDir : List String)
    (linkPath : String) : String :=
  match relTo (pyResolve cwd (linkTarget currentDir linkPath)) (normAbs rootAbs) with
  | some rel => pathStr rel
  | none => pyPathStr (pyDiv currentDir linkPath)

/-- The path-comparison tier of `find_file_index_by_path`. -/
def pathTierIdx (cwd rootAbs : List String) (files : List RelPath)
    (currentIdx : Nat) (linkPath : String) : Option Nat :=
  firstIdxFrom
    (fun f => slashify (pathStr f) ==
      slashify (linkTargetRelStr cwd rootAbs
        ((files.getD currentIdx []).dropLast) linkPath))
    0 files

/-- The base-name fallback tier of `find_file_index_by_path`. -/
def nameTierIdx (files : List RelPath) (linkPath : String) : Option Nat :=
  firstIdxFrom (fun f => fileName f == pyName linkPath) 0 files

/-- `find_file_index_by_path`: path tier, then base-name fallback. -/
def findFileIndexByPath (cwd rootAbs : List String) (files : List RelPath)
    (currentIdx : Nat) (linkPath : String) : Option Nat :=
  match pathTierIdx cwd rootAbs files currentIdx linkPath with
  | some i => some i
  | none => nameTierIdx files linkPath

/-- The rewritten anchor
`<a href="#" onclick="navigateToSection(i); return false;" ...>text</a>`. -/
def internalLinkHtml (targetIdx : Nat) (text : String) : String :=
  "<a href=\"#\" onclick=\"navigateToSection(" ++ Nat.repr targetIdx ++
    "); return false;\" class=\"internal-link\">" ++ text ++ "</a>"

/-- The anchor as matched by the link regex: `<a href="H">T</a>`. -/
def originalAnchorHtml (href text : String) : String :=
  "<a href=\"" ++ href ++ "\">" ++ text ++ "</a>"

/-- `replace_link`: the per-anchor rewriting, returning the replacement
string and the emitted warnings. -/
def replaceLink (cwd rootAbs : List String) (files : List RelPath)
    (currentIdx : Nat) (href text : String) : String × List String :=
  match findFileIndexByPath cwd rootAbs files currentIdx href with
  | some t => (internalLinkHtml t text, [])
  | none => (originalAnchorHtml href text,
      ["Warning: Could not resolve link " ++ href ++ " in file index " ++
        Nat.repr currentIdx])

/-- Wellformedness of one component of a real filesystem path: nonempty,
no separators, not a dot component. -/
def wfPart (s : String) : Prop :=
  s ≠ "" ∧ ('/' : Char) ∉ s.data ∧ ('\\' : Char) ∉ s.data ∧ s ≠ ".." ∧ s ≠ "."

instance (s : String) : Decidable (wfPart s) := by
  unfold wfPart
  infer_instance

/-- Wellformedness of an absolute directory component list. -/
def wfAbs (l : List String) : Prop := ∀ s ∈ l, wfPart s

instance (l : List String) : Decidable (wfAbs l) := by
  unfold wfAbs
  infer_instance

/-- Wellformedness of the relative path of a discovered file. -/
def wfFile (p : RelPath) : Prop := p ≠ [] ∧ ∀ s ∈ p, wfPart s

instance (p : RelPath) : Decidable (wfFile p) := by
  unfold wfFile
  infer_instance

/-! ### Navigation tree (`generate_navigation` cli.py 244-284 and
`_build_folder_navigation` cli.py 286-322)

The nested `folder_tree` dict is modelled by `DirTree`: a node holds its
`'files'` bucket (ordinal, stem pairs, insertion-ordered) and its folder
entries (name, subtree pairs, key-insertion-ordered); the whole tree's
root node holds the `'root'` bucket.  Folders literally named `files` or
`root` are not modelled: in the Python dict they collide with those
bookkeeping keys. -/

/-- Python single-character `str.replace`. -/
def pyReplace (a b : Char) (s : String) : String :=
  ⟨s.data.map (fun c => if c = a then b else c)⟩

/-- Python `str.title()` (ASCII): uppercase an alphabetic character after
a non-alphabetic one, lowercase the rest. -/
def pyTitleAux : Bool → List Char → List Char
  | _, [] => []
  | prevAlpha, c :: cs =>
    (if c.isAlpha then (if prevAlpha then c.toLower else c.toUpper) else c)
      :: pyTitleAux c.isAlpha cs

/-- Python `str.title()`. -/
def pyTitle (s : String) : String := ⟨pyTitleAux false s.data⟩

/-- `name.replace('_', ' ').replace('-', ' ').title()`. -/
def displayName (s : String) : String :=
  pyTitle (pyReplace '-' ' ' (pyReplace '_' ' ' s))

/-- `pathlib` stem: the final component without its (nonempty, non-dot-
leading) last suffix. -/
def pyStem (name : String) : String :=
  match name.data.reverse.findIdx? (fun c => c = '.') with
  | some j =>
    if 0 < name.data.length - 1 - j ∧ name.data.length - 1 - j < name.data.length - 1
    then ⟨name.data.take (name.data.length - 1 - j)⟩ else name
  | none => name

inductive DirTree where
  | node (files : List (Nat × String)) (subs : List (String × DirTree))

/-- Walk-or-create one level of the folder dict: descend into key `d`
(applying the continuation) or create it at the end. -/
def updAssoc (d : String) (f : DirTree → DirTree) (dflt : DirTree) :
    List (String × DirTree) → List (String × DirTree)
  | [] => [(d, dflt)]
  | (q, t) :: rest =>
    if q = d then (q, f t) :: rest else (q, t) :: updAssoc d f dflt rest

/-- Insert one document at its folder path (`path_parts`), appending to
the `'files'` bucket of the deepest level (the root bucket for `[]`). -/
def insertTree : DirTree → List String → (Nat × String) → DirTree
  | .node fs subs, [], e => .node (fs ++ [e]) subs
  | .node fs subs, d :: ds, e =>
    .node fs (updAssoc d (fun t => insertTree t ds e)
      (insertTree (.node [] []) ds e) subs)

/-- The folder-tree build loop of `generate_navigation`. -/
def buildNavTree (files : List RelPath) : DirTree :=
  files.enum.foldl
    (fun t ip => insertTree t ip.2.dropLast (ip.1, pyStem (fileName ip.2)))
    (.node [] [])

/-- `folder_id = (parent_path + '_' + folder_name if parent_path else
folder_name).replace('/', '_').replace('\\', '_')`. -/
def mkFolderId (parentPath name : String) : String :=
  pyReplace '\\' '_'
    (pyReplace '/' '_' (if parentPath = "" then name else parentPath ++ "_" ++ name))

/-- One emitted sidebar item, keeping only the structure the claims are
about: document links (`showSection(i)` anchors) and folder headers with
their DOM identifier. -/
inductive NavItem where
  | link (idx : Nat) (title : String)
  | folderHeader (id : String) (name : String)
  | folderEnd
deriving DecidableEq, Repr

/-- The loop of `_build_folder_navigation` over the folder entries of one
dict level (the `'files'` bucket is not a folder entry): a folder named
`root` is skipped entirely — the `continue` of the loop, re-checked at
every recursion level; for every other folder emit its header, its file
links, its subfolders recursively, and the closing markup. -/
def buildFolderNav (parent : String) : List (String × DirTree) → List NavItem
  | [] => []
  | (name, .node fs subs) :: rest =>
    if name = "root" then buildFolderNav parent rest
    else
      (NavItem.folderHeader (mkFolderId parent name) (displayName name) ::
        (fs.map (fun e => NavItem.link e.1 (displayName e.2)) ++
          (buildFolderNav (mkFolderId parent name) subs ++ [NavItem.folderEnd]))) ++
        buildFolderNav parent rest

/-- `generate_navigation`: root-bucket links first, then the folder
hierarchy. -/
def generateNavigation (files : List RelPath) : List NavItem :=
  match buildNavTree files with
  | .node rootFs subs =>
    rootFs.map (fun e => NavItem.link e.1 (displayName e.2)) ++
      buildFolderNav "" subs

/-- The folder identifiers of the emitted sidebar, in emission order. -/
def navFolderIds (items : List NavItem) : List String :=
  items.filterMap (fun it =>
    match it with
    | .folderHeader i _ => some i
    | _ => none)

/-- Wellformedness of a folder name under which the synthesized folder
identifiers are collision-free: nonempty, without the join character `_`,
without separators, and distinct from the dict bookkeeping keys `files`
and `root` of the Python implementation. -/
def navPart (s : String) : Prop :=
  s ≠ "" ∧ ('_' : Char) ∉ s.data ∧ ('/' : Char) ∉ s.data ∧
    ('\\' : Char) ∉ s.data ∧ s ≠ "files" ∧ s ≠ "root"

instance (s : String) : Decidable (navPart s) := by
  unfold navPart
  infer_instance

/-- The ancestor chain joined by `_` — the value the iterated
`parent_path + '_' + folder_name` accumulates to. -/
def usJoin (l : List String) : String :=
  (joinCh '_' (l.map String.data)).asString

/-- The ancestor chains (root-to-folder name lists) of every folder of a
dict level, in the emission order of `_build_folder_navigation`. -/
def collectChains (anc : List String) : List (String × DirTree) → List (List String)
  | [] => []
  | (name, .node _ subs) :: rest =>
    (anc ++ [name]) ::
      (collectChains (anc ++ [name]) subs ++ collectChains anc rest)

/-- Invariant of the built folder dict: sibling keys are distinct (dict
keys) and every folder name is a `navPart`. -/
def subsOk : List (String × DirTree) → Prop
  | [] => True
  | (name, .node _ subs) :: rest =>
    navPart name ∧ (∀ q ∈ rest, q.1 ≠ name) ∧ subsOk subs ∧ subsOk rest

/-- `treeOk` of a node is `subsOk` of its folder entries. -/
def treeOk : DirTree → Prop
  | .node _ subs => subsOk subs

inductive HtmlAtom where
  | anchor (href text : String)
  | heading (level : Nat) (id : String) (body : String)
  | table (inner : String)
  | raw (s : String)
deriving DecidableEq, Repr

/-- A model of the external `markdown` library's rendering. -/
abbrev MdRenderer := String → List HtmlAtom

/-- `process_internal_links`: rewrite every anchor whose href ends in
`.md`; an unresolvable link stays unchanged and warns. -/
def processInternalLinks (cwd rootAbs : List String) (files : List RelPath)
    (currentIdx : Nat) (atoms : List HtmlAtom) : List HtmlAtom × List String :=
  atoms.foldr
    (fun a acc =>
      match a with
      | .anchor href text =>
        if pyEndsWith ".md" href then
          match findFileIndexByPath cwd rootAbs files currentIdx href with
          | some t => (.raw (internalLinkHtml t text) :: acc.1, acc.2)
          | none => (.anchor href text :: acc.1,
              ("Warning: Could not resolve link " ++ href ++
                " in file index " ++ Nat.repr currentIdx) :: acc.2)
        else (.anchor href text :: acc.1, acc.2)
      | a => (a :: acc.1, acc.2))
    ([], [])

/-- `prefix_heading_ids`: namespace every heading id with the ordinal. -/
def prefixHeadingIds (atoms : List HtmlAtom) (sectionIndex : Nat) : List HtmlAtom :=
  atoms.map (fun a =>
    match a with
    | .heading lvl hid body => .heading lvl (newHeadingId sectionIndex hid) body
    | a => a)

/-- `wrap_tables`: wrap every table in the scroll container div. -/
def wrapTables (atoms : List HtmlAtom) : List HtmlAtom :=
  atoms.map (fun a =>
    match a with
    | .table inner =>
      .raw ("<div class=\"table-wrapper\"><table>" ++ inner ++ "</table></div>")
    | a => a)

/-- `convert_markdown_to_html`: fence normalization, external rendering,
link rewriting, heading namespacing, table wrapping. -/
def convertMarkdownToHtml (mdRender : MdRenderer) (cwd rootAbs : List String)
    (files : List RelPath) (currentIdx : Nat) (mdContent : String) :
    List HtmlAtom × List String :=
  let atoms := mdRender (normalizeCodeFenceIndentation mdContent)
  let resolved := processInternalLinks cwd rootAbs files currentIdx atoms
  (wrapTables (prefixHeadingIds resolved.1 currentIdx), resolved.2)

/-- `re.sub(r'<[^>]+>', '', ...)` over heading text (approximated by a
tag-state scan). -/
def stripHtmlTagsAux : Bool → List Char → List Char
  | _, [] => []
  | true, c :: cs => if c = '>' then stripHtmlTagsAux false cs else stripHtmlTagsAux true cs
  | false, c :: cs => if c = '<' then stripHtmlTagsAux true cs else c :: stripHtmlTagsAux false cs

def stripHtmlTags (s : String) : String := ⟨stripHtmlTagsAux false s.data⟩

/-- The outcome of `generate_toc`: the explicit empty-state marker, or the
list of (level, namespaced id, cleaned text) entries. -/
inductive TocOut where
  | empty
  | entries (l : List (Nat × String × String))
deriving DecidableEq, Repr

/-- `generate_toc`. -/
def generateToc (atoms : List HtmlAtom) : TocOut :=
  let hs := atoms.filterMap (fun a =>
    match a with
    | .heading lvl hid body => some (lvl, hid, body)
    | _ => none)
  if hs.isEmpty then .empty
  else .entries (hs.filterMap (fun x =>
    let clean := pyStrip (stripHtmlTags x.2.2)
    if clean = "" then none else some (x.1, x.2.1, clean)))

/-- The section title derived from the relative path (`Folder / File`
title-casing). -/
def sectionTitle (p : RelPath) : String :=
  if p.dropLast.isEmpty then displayName (pyStem (fileName p))
  else displayName (p.dropLast.getLast?.getD "") ++ " / " ++
    displayName (pyStem (fileName p))

/-- One entry of the tag index: `{'name': ..., 'index': ..., 'path': ...}`. -/
structure TagEntry where
  name : String
  index : Nat
  path : String
deriving DecidableEq, Repr

/-- `if tag not in tag_file_map: tag_file_map[tag] = []` followed by the
append: insertion-ordered dict update. -/
def tagMapAdd : List (String × List TagEntry) → String → TagEntry →
    List (String × List TagEntry)
  | [], t, e => [(t, [e])]
  | b :: rest, t, e =>
    if b.1 = t then (b.1, b.2 ++ [e]) :: rest else b :: tagMapAdd rest t e

/-- The `for tag in tags:` loop of one document. -/
def addDocTags (m : List (String × List TagEntry)) (tags : List String)
    (e : TagEntry) : List (String × List TagEntry) :=
  tags.foldl (fun m t => tagMapAdd m t e) m

/-- Dict lookup of a tag's bucket (empty when absent). -/
def lookupBucket : List (String × List TagEntry) → String → List TagEntry
  | [], _ => []
  | b :: rest, t => if b.1 = t then b.2 else lookupBucket rest t

/-- `tags` lookup in parsed frontmatter. -/
def fmLookup (fm : Frontmatter) (k : String) : Option Yaml :=
  (fm.find? (fun e => e.1 == k)).map Prod.snd

/-- Python truthiness of the modelled YAML values. -/
def yamlTruthy : Yaml → Bool
  | .str s => s ≠ ""
  | .strList l => !l.isEmpty
  | .int n => n ≠ 0

/-- `for tag in tags`: iterating a list yields its items, iterating a
string yields its characters, iterating an integer raises `TypeError`. -/
def yamlIter : Yaml → Except Unit (List String)
  | .strList l => .ok l
  | .str s => .ok (s.data.map (fun c => String.singleton c))
  | .int _ => .error ()

/-- One emitted content section (`<div id="section-i" ...>`). -/
structure SectionOut where
  idx : Nat
  sectionId : String
  title : String
  toc : TocOut
  body : List HtmlAtom
deriving Repr

inductive RunErr where
  | load (e : LoadErr)
  | typeErr
deriving DecidableEq, Repr

/-- The contents of a file of the input directory
(`read_markdown_file` returns `""` when the read fails). -/
def contentOf (entries : List (RelPath × String)) (p : RelPath) : String :=
  match entries.find? (fun e => e.1 == p) with
  | some e => e.2
  | none => ""

/-- The accumulator of the section loop: emitted sections, the tag map,
collected warnings. -/
abbrev PipeAcc := List SectionOut × List (String × List TagEntry) × List String

/-- The rendered and post-processed body of one document, with the link
warnings. -/
def docConv (yamlParse : YamlParser) (mdRender : MdRenderer)
    (cwd rootAbs : List String) (seq : List RelPath) (ip : Nat × RelPath)
    (content : String) : List HtmlAtom × List String :=
  convertMarkdownToHtml mdRender cwd rootAbs seq ip.1
    (parseFrontmatter yamlParse content).2.1

/-- The content section emitted for one (nonempty) document. -/
def docSection (yamlParse : YamlParser) (mdRender : MdRenderer)
    (cwd rootAbs : List String) (seq : List RelPath) (ip : Nat × RelPath)
    (content : String) : SectionOut :=
  ⟨ip.1, "section-" ++ Nat.repr ip.1, sectionTitle ip.2,
    generateToc (docConv yamlParse mdRender cwd rootAbs seq ip content).1,
    (docConv yamlParse mdRender cwd rootAbs seq ip content).1⟩

/-- The warnings appended while processing one document. -/
def docWarns (yamlParse : YamlParser) (mdRender : MdRenderer)
    (cwd rootAbs : List String) (seq : List RelPath) (ip : Nat × RelPath)
    (content : String) : List String :=
  (parseFrontmatter yamlParse content).2.2 ++
    (docConv yamlParse mdRender cwd rootAbs seq ip content).2

/-- The body of the `for i, file_path in enumerate(...)` loop of
`generate_html_content` for one document. -/
def processDoc (yamlParse : YamlParser) (mdRender : MdRenderer)
    (cwd rootAbs : List String) (entries : List (RelPath × String))
    (seq : List RelPath) (acc : PipeAcc) (ip : Nat × RelPath) :
    Except RunErr PipeAcc :=
  if pyStrip (contentOf entries ip.2) = "" then .ok acc
  else
    match fmLookup (parseFrontmatter yamlParse (contentOf entries ip.2)).1 "tags" with
    | some v =>
      if yamlTruthy v then
        match yamlIter v with
        | .ok tags =>
          .ok (acc.1 ++
              [docSection yamlParse mdRender cwd rootAbs seq ip (contentOf entries ip.2)],
            addDocTags acc.2.1 tags
              ⟨sectionTitle ip.2, ip.1, pathStr ip.2⟩,
            acc.2.2 ++ docWarns yamlParse mdRender cwd rootAbs seq ip (contentOf entries ip.2))
        | .error _ => .error .typeErr
      else
        .ok (acc.1 ++
            [docSection yamlParse mdRender cwd rootAbs seq ip (contentOf entries ip.2)],
          acc.2.1,
          acc.2.2 ++ docWarns yamlParse mdRender cwd rootAbs seq ip (contentOf entries ip.2))
    | none =>
      .ok (acc.1 ++
          [docSection yamlParse mdRender cwd rootAbs seq ip (contentOf entries ip.2)],
        acc.2.1,
        acc.2.2 ++ docWarns yamlParse mdRender cwd rootAbs seq ip (contentOf entries ip.2))

/-- The section/tag-index building loop of `generate_html_content`. -/
def generateHtmlContent (yamlParse : YamlParser) (mdRender : MdRenderer)
    (cwd rootAbs : List String) (entries : List (RelPath × String))
    (seq : List RelPath) : Except RunErr PipeAcc :=
  seq.enum.foldlM (processDoc yamlParse mdRender cwd rootAbs entries seq) ([], [], [])

/-- A concrete YAML collaborator for closed runs: `tags: 5` parses to an
integer-valued `tags` key and `tags: ab` to a string-valued one (as
`yaml.safe_load` would produce), anything else fails to parse. -/
def ypInt : YamlParser := fun s =>
  if s = "tags: 5" then some [("tags", Yaml.int 5)]
  else if s = "tags: ab" then some [("tags", Yaml.str "ab")]
  else if s = "tags: [x, y, x]" then some [("tags", Yaml.strList ["x", "y", "x"])]
  else none

/-- A concrete markdown collaborator rendering every source to no atoms. -/
def mrNil : MdRenderer := fun s => [.raw ("<p>" ++ s ++ "</p>")]

/-- The tag-index entry recorded for document ordinal `ip.1` at path
`ip.2`: title, ordinal, relative path. -/
def entryOf (ip : Nat × RelPath) : TagEntry :=
  ⟨sectionTitle ip.2, ip.1, pathStr ip.2⟩

/-- Whether a document's `tags` value, if present and truthy, is an actual
list, so that `for tag in tags` walks list items rather than the characters
of a string (or raises on an integer). -/
def tagsListOk (yamlParse : YamlParser) (entries : List (RelPath × String))
    (p : RelPath) : Bool :=
  match fmLookup (parseFrontmatter yamlParse (contentOf entries p)).1 "tags" with
  | some (.strList _) => true
  | some v => !yamlTruthy v
  | none => true

/-- Modelled from the spec: the frontmatter tag list of a processed
document; a skipped whitespace-only document, or frontmatter without a
`tags` list, contributes nothing. -/
def specDocTags (yamlParse : YamlParser) (entries : List (RelPath × String))
    (p : RelPath) : List String :=
  if pyStrip (contentOf entries p) = "" then []
  else
    match fmLookup (parseFrontmatter yamlParse (contentOf entries p)).1 "tags" with
    | some (.strList l) => l
    | _ => []

/-- Modelled from the spec: tag `t` maps to one entry
`{title, ordinal, path}` per occurrence of `t` in a document's frontmatter
tag list, in document processing order, occurrence order within a
document. -/
def specTagBucket (yamlParse : YamlParser) (entries : List (RelPath × String))
    (seq : List RelPath) (t : String) : List TagEntry :=
  seq.enum.bind (fun ip =>
    ((specDocTags yamlParse entries ip.2).filter (fun x => x = t)).map
      (fun _ => entryOf ip))

/-- Keys in first-sight order: the fold Python dict insertion performs. -/
def dedupFirst (l : List String) : List String :=
  l.foldl (fun acc t => if t ∈ acc then acc else acc ++ [t]) []

/-- A one-document corpus whose frontmatter `tags` value is the YAML string
`ab`. -/
def docsCharTags : List (RelPath × String) :=
  [(["index.md"], "---\ntags: ab\n---\nhello")]

/-- A one-document corpus whose frontmatter `tags` value is the YAML list
`[x, y, x]`. -/
def docsTagged : List (RelPath × String) :=
  [(["index.md"], "---\ntags: [x, y, x]\n---\nhello")]

theorem splitCh_ne_nil (c : Char) (l : List Char) : splitCh c l ≠ [] := by
  induction l with
  | nil => simp [splitCh]
  | cons x xs ih =>
    simp only [splitCh]
    split
    · simp
    · cases h : splitCh c xs with
      | nil => simp
      | cons s rest => simp

theorem joinCh_splitCh (c : Char) (l : List Char) :
    joinCh c (splitCh c l) = l := by
  induction l with
  | nil => simp [splitCh, joinCh]
  | cons x xs ih =>
    simp only [splitCh]
    split
    · rename_i hx
      cases h : splitCh c xs with
      | nil => exact absurd h (splitCh_ne_nil c xs)
      | cons s rest =>
        rw [h] at ih
        subst hx
        simp [joinCh]
        cases rest with
        | nil => simpa [joinCh] using ih
        | cons r rs => simpa [joinCh] using ih
    · cases h : splitCh c xs with
      | nil => exact absurd h (splitCh_ne_nil c xs)
      | cons s rest =>
        rw [h] at ih
        cases rest with
        | nil => simpa [joinCh] using ih
        | cons r rs => simpa [joinCh] using ih

theorem not_mem_of_mem_splitCh {c : Char} {l : List Char} {s : List Char}
    (hs : s ∈ splitCh c l) : c ∉ s := by
  induction l generalizing s with
  | nil =>
    simp [splitCh] at hs
    simp [hs]
  | cons x xs ih =>
    simp only [splitCh] at hs
    split at hs
    · rcases List.mem_cons.mp hs with h | h
      · simp [h]
      · exact ih h
    · rename_i hx
      cases h : splitCh c xs with
      | nil => exact absurd h (splitCh_ne_nil c xs)
      | cons t rest =>
        rw [h] at hs
        rcases List.mem_cons.mp hs with h' | h'
        · subst h'
          intro hmem
          rcases List.mem_cons.mp hmem with h'' | h''
          · exact hx h''.symm
          · exact ih (h ▸ List.mem_cons_self t rest) h''
        · exact ih (h ▸ List.mem_cons.mpr (Or.inr h'))

theorem splitCh_of_not_mem {c : Char} {l : List Char} (hcl : c ∉ l) :
    splitCh c l = [l] := by
  induction l with
  | nil => simp [splitCh]
  | cons x xs ihx =>
    have hx : x ≠ c := fun h => hcl (h ▸ List.mem_cons_self x xs)
    have hxs : c ∉ xs := fun h => hcl (List.mem_cons.mpr (Or.inr h))
    simp only [splitCh, if_neg hx]
    rw [ihx hxs]

theorem splitCh_append_sep {c : Char} {l rest : List Char} (hcl : c ∉ l) :
    splitCh c (l ++ c :: rest) = l :: splitCh c rest := by
  induction l with
  | nil => simp [splitCh]
  | cons x xs ihx =>
    have hx : x ≠ c := fun h => hcl (h ▸ List.mem_cons_self x xs)
    have hxs : c ∉ xs := fun h => hcl (List.mem_cons.mpr (Or.inr h))
    simp only [List.cons_append, splitCh, if_neg hx, List.append_eq]
    rw [ihx hxs]

theorem splitCh_joinCh (c : Char) (ls : List (List Char))
    (hne : ls ≠ []) (hc : ∀ l ∈ ls, c ∉ l) :
    splitCh c (joinCh c ls) = ls := by
  induction ls with
  | nil => exact absurd rfl hne
  | cons l ls ih =>
    cases ls with
    | nil =>
      simp only [joinCh]
      exact splitCh_of_not_mem (hc l (List.mem_cons_self l []))
    | cons m ms =>
      simp only [joinCh]
      have hrest : splitCh c (joinCh c (m :: ms)) = m :: ms :=
        ih (by simp) (fun t ht => hc t (List.mem_cons.mpr (Or.inr ht)))
      rw [splitCh_append_sep (hc l (List.mem_cons_self l _)), hrest]

theorem pyStartsWith_iff (p l : List Char) :
    pyStartsWith p l = true ↔ ∃ t, l = p ++ t := by
  induction p generalizing l with
  | nil => simp [pyStartsWith]
  | cons a ps ih =>
    cases l with
    | nil =>
      simp only [pyStartsWith]
      constructor
      · intro h; cases h
      · rintro ⟨t, ht⟩; cases ht
    | cons b ls =>
      simp only [pyStartsWith, Bool.and_eq_true, beq_iff_eq]
      rw [ih ls]
      constructor
      · rintro ⟨rfl, t, rfl⟩; exact ⟨t, rfl⟩
      · rintro ⟨t, ht⟩
        injection ht with h1 h2
        exact ⟨h1.symm, t, h2⟩

theorem pyStartsWith_append (p t : List Char) :
    pyStartsWith p (p ++ t) = true :=
  (pyStartsWith_iff p (p ++ t)).mpr ⟨t, rfl⟩

/-! ### Code fence normalization (`normalize_code_fence_indentation`, cli.py 145-184) -/

theorem stripIndent_zero (l : List Char) : stripIndent 0 l = l := by
  simp [stripIndent]

theorem drop_leadingSpaces (l : List Char) :
    l.drop (leadingSpaces l) = l.dropWhile (fun c => c = ' ') := by
  induction l with
  | nil => simp [leadingSpaces]
  | cons x xs ih =>
    by_cases hx : x = ' '
    · simp [leadingSpaces, List.takeWhile_cons, hx, List.dropWhile_cons] at ih ⊢
      exact ih
    · simp [leadingSpaces, List.takeWhile_cons, hx, List.dropWhile_cons]

theorem drop_replicate_append (k : Nat) (rest : List Char) :
    (List.replicate k ' ' ++ rest).drop k = rest := by
  induction k with
  | zero => simp
  | succ n ih => simp [List.replicate_succ, ih]

theorem dropWhile_replicate_append (k : Nat) (rest : List Char) :
    (List.replicate k ' ' ++ rest).dropWhile (fun c => c = ' ') =
      rest.dropWhile (fun c => c = ' ') := by
  induction k with
  | zero => simp
  | succ n ih => simp [List.replicate_succ, List.dropWhile_cons, ih]

theorem isFence_stripIndent (k : Nat) (l : List Char) :
    isFence (stripIndent k l) = isFence l := by
  unfold stripIndent
  split
  · rename_i hpre
    obtain ⟨rest, hrest⟩ := (pyStartsWith_iff _ _).mp hpre
    subst hrest
    rw [drop_replicate_append]
    unfold isFence
    rw [dropWhile_replicate_append]
  · rfl

theorem isFence_drop_leadingSpaces {l : List Char} (h : isFence l = true) :
    isFence (l.drop (leadingSpaces l)) = true := by
  rw [drop_leadingSpaces]
  unfold isFence at h ⊢
  obtain ⟨t, ht⟩ := (pyStartsWith_iff _ _).mp h
  rw [ht]
  have hstep : ("```".data ++ t).dropWhile (fun c => c = ' ') = "```".data ++ t := by
    show ('`' :: '`' :: '`' :: t).dropWhile (fun c => c = ' ') = '`' :: '`' :: '`' :: t
    simp [List.dropWhile_cons]
  rw [hstep]
  exact pyStartsWith_append _ _

theorem leadingSpaces_drop_of_isFence {l : List Char} (h : isFence l = true) :
    leadingSpaces (l.drop (leadingSpaces l)) = 0 := by
  rw [drop_leadingSpaces]
  unfold isFence at h
  obtain ⟨t, ht⟩ := (pyStartsWith_iff _ _).mp h
  have hd : l.dropWhile (fun c => c = ' ') = '`' :: '`' :: '`' :: t := ht
  rw [hd]
  simp [leadingSpaces, List.takeWhile_cons]

/-- The second pass of the fence scan, run with `fence_indent = 0`, leaves
the output of a first pass unchanged. -/
theorem normFenceLines_idem (ls : List (List Char)) :
    ∀ inF k, normFenceLines inF 0 (normFenceLines inF k ls) =
      normFenceLines inF k ls := by
  induction ls with
  | nil => intro inF k; simp [normFenceLines]
  | cons l ls ih =>
    intro inF k
    cases hf : isFence l with
    | true =>
      cases inF with
      | true =>
        have h1 : isFence (stripIndent k l) = true := by
          rw [isFence_stripIndent]; exact hf
        simp [normFenceLines, hf, h1, stripIndent_zero, ih false 0]
      | false =>
        have h1 := isFence_drop_leadingSpaces hf
        have h2 := leadingSpaces_drop_of_isFence hf
        simp [normFenceLines, hf, h1, h2, ih true (leadingSpaces l)]
    | false =>
      cases inF with
      | true =>
        have h1 : isFence (stripIndent k l) = false := by
          rw [isFence_stripIndent]; exact hf
        simp [normFenceLines, hf, h1, stripIndent_zero, ih true k]
      | false =>
        simp [normFenceLines, hf, ih false k]

theorem normFenceLines_of_unindented (ls : List (List Char)) :
    ∀ inF, fencesUnindented inF ls = true → normFenceLines inF 0 ls = ls := by
  induction ls with
  | nil => intro inF _; simp [normFenceLines]
  | cons l ls ih =>
    intro inF h
    cases hf : isFence l with
    | true =>
      cases inF with
      | true =>
        rw [fencesUnindented] at h
        simp only [hf, if_true] at h
        simp [normFenceLines, hf, stripIndent_zero, ih false h]
      | false =>
        rw [fencesUnindented] at h
        simp only [hf, if_true, Bool.false_eq_true, if_false, Bool.and_eq_true,
          beq_iff_eq] at h
        simp [normFenceLines, hf, h.1, ih true h.2]
    | false =>
      cases inF with
      | true =>
        rw [fencesUnindented] at h
        simp only [hf, Bool.false_eq_true, if_false] at h
        simp [normFenceLines, hf, stripIndent_zero, ih true h]
      | false =>
        rw [fencesUnindented] at h
        simp only [hf, Bool.false_eq_true, if_false] at h
        simp [normFenceLines, hf, ih false h]

theorem not_mem_normFenceLines {ls : List (List Char)}
    (h : ∀ l ∈ ls, ('\n' : Char) ∉ l) :
    ∀ inF k, ∀ m ∈ normFenceLines inF k ls, ('\n' : Char) ∉ m := by
  induction ls with
  | nil => intro inF k m hm; simp [normFenceLines] at hm
  | cons l ls ih =>
    intro inF k m hm
    have hl : ('\n' : Char) ∉ l := h l (List.mem_cons_self l ls)
    have hls : ∀ l ∈ ls, ('\n' : Char) ∉ l :=
      fun t ht => h t (List.mem_cons.mpr (Or.inr ht))
    have hdrop : ∀ n, ('\n' : Char) ∉ l.drop n :=
      fun n hc => hl ((List.drop_sublist n l).subset hc)
    have hstrip : ∀ n, ('\n' : Char) ∉ stripIndent n l := by
      intro n
      unfold stripIndent
      split
      · exact hdrop n
      · exact hl
    simp only [normFenceLines] at hm
    split at hm <;> split at hm <;>
      rcases List.mem_cons.mp hm with h' | h' <;>
      first
        | (subst h'; first | exact hstrip _ | exact hdrop _ | exact hl)
        | exact ih hls _ _ m h'

theorem data_asString (l : List Char) : (l.asString).data = l :=
  List.toList_asString l

theorem normFenceLines_ne_nil {ls : List (List Char)} (h : ls ≠ [])
    (inF : Bool) (k : Nat) : normFenceLines inF k ls ≠ [] := by
  cases ls with
  | nil => exact absurd rfl h
  | cons l ls =>
    simp only [normFenceLines]
    split <;> split <;> simp

/-- C6: code-fence normalization is idempotent, and a body whose opening
fences all have zero indentation is returned unchanged. -/
theorem normalizeCodeFence_idempotent :
    (∀ body : String,
      normalizeCodeFenceIndentation (normalizeCodeFenceIndentation body) =
        normalizeCodeFenceIndentation body) ∧
    (∀ body : String,
      fencesUnindented false (splitCh '\n' body.data) = true →
        normalizeCodeFenceIndentation body = body) := by
  constructor
  · intro body
    unfold normalizeCodeFenceIndentation
    rw [data_asString]
    have hnl : ∀ m ∈ normFenceLines false 0 (splitCh '\n' body.data),
        ('\n' : Char) ∉ m :=
      not_mem_normFenceLines (fun l hl => not_mem_of_mem_splitCh hl) false 0
    rw [splitCh_joinCh '\n' _
      (normFenceLines_ne_nil (splitCh_ne_nil '\n' body.data) false 0) hnl]
    rw [normFenceLines_idem]
  · intro body h
    unfold normalizeCodeFenceIndentation
    rw [normFenceLines_of_unindented _ false h, joinCh_splitCh]
    exact String.asString_toList body

/-- Witness for C6 at concrete bodies. -/
theorem normalizeCodeFence_idempotent_witness :
    normalizeCodeFenceIndentation
        (normalizeCodeFenceIndentation "- x\n  ```\n    code\n  ```\ny") =
      normalizeCodeFenceIndentation "- x\n  ```\n    code\n  ```\ny" ∧
    normalizeCodeFenceIndentation "a\n```\nco de\n```\nb" =
      "a\n```\nco de\n```\nb" :=
  ⟨normalizeCodeFence_idempotent.1 _,
   normalizeCodeFence_idempotent.2 _ (by decide)⟩

/-! ### Heading id namespacing (`prefix_heading_ids`, cli.py 229-242) -/

theorem digitChar_isDigit {m : Nat} (h : m < 10) :
    (Nat.digitChar m).isDigit = true := by
  interval_cases m <;> decide

theorem digitChar_inj_lt :
    ∀ a < 10, ∀ b < 10, Nat.digitChar a = Nat.digitChar b → a = b := by decide

theorem toDigitsCore_eq_digits (f : Nat) :
    ∀ n acc, 0 < n → n < 10 ^ f →
      Nat.toDigitsCore 10 f n acc =
        ((Nat.digits 10 n).map Nat.digitChar).reverse ++ acc := by
  induction f with
  | zero =>
    intro n acc hn hf
    simp at hf
    omega
  | succ f ih =>
    intro n acc hn hf
    have hdig : Nat.digits 10 n = n % 10 :: Nat.digits 10 (n / 10) :=
      Nat.digits_def' (by norm_num) hn
    by_cases hq : n / 10 = 0
    · simp only [Nat.toDigitsCore, hq, if_true]
      rw [hdig, hq]
      simp
    · simp only [Nat.toDigitsCore, hq, if_false]
      have hq0 : 0 < n / 10 := Nat.pos_of_ne_zero hq
      have hqlt : n / 10 < 10 ^ f := by
        have h1 : n < 10 * 10 ^ f := by
          rw [← pow_succ']
          exact hf
        exact Nat.div_lt_of_lt_mul h1
      rw [ih (n / 10) (Nat.digitChar (n % 10) :: acc) hq0 hqlt, hdig]
      simp

theorem repr_data_of_pos {n : Nat} (hn : 0 < n) :
    (Nat.repr n).data = ((Nat.digits 10 n).map Nat.digitChar).reverse := by
  show (Nat.toDigits 10 n).asString.data = _
  rw [data_asString]
  unfold Nat.toDigits
  rw [toDigitsCore_eq_digits (n + 1) n [] hn]
  · simp
  · calc n < 10 ^ n := Nat.lt_pow_self (by norm_num) n
      _ ≤ 10 ^ (n + 1) := Nat.pow_le_pow_right (by norm_num) (Nat.le_succ n)

theorem repr_data_isDigit (n : Nat) :
    ∀ c ∈ (Nat.repr n).data, c.isDigit = true := by
  rcases Nat.eq_zero_or_pos n with rfl | hn
  · intro c hc
    have h0 : (Nat.repr 0).data = ['0'] := by decide
    rw [h0] at hc
    simp only [List.mem_singleton] at hc
    simp [hc]
  · rw [repr_data_of_pos hn]
    intro c hc
    simp only [List.mem_reverse, List.mem_map] at hc
    obtain ⟨d, hd, rfl⟩ := hc
    exact digitChar_isDigit (Nat.digits_lt_base (by norm_num) hd)

theorem map_digitChar_inj :
    ∀ l1 l2 : List Nat, (∀ x ∈ l1, x < 10) → (∀ x ∈ l2, x < 10) →
      l1.map Nat.digitChar = l2.map Nat.digitChar → l1 = l2 := by
  intro l1
  induction l1 with
  | nil =>
    intro l2 _ _ h
    cases l2 with
    | nil => rfl
    | cons b bs => simp at h
  | cons a as ih =>
    intro l2 h1 h2 h
    cases l2 with
    | nil => simp at h
    | cons b bs =>
      simp only [List.map_cons, List.cons.injEq] at h
      have ha : a < 10 := h1 a (List.mem_cons_self a as)
      have hb : b < 10 := h2 b (List.mem_cons_self b bs)
      have hab : a = b := digitChar_inj_lt a ha b hb h.1
      have htail : as = bs :=
        ih bs (fun x hx => h1 x (List.mem_cons.mpr (Or.inr hx)))
          (fun x hx => h2 x (List.mem_cons.mpr (Or.inr hx))) h.2
      rw [hab, htail]

theorem repr_injective : Function.Injective Nat.repr := by
  intro m n h
  have hdata : (Nat.repr m).data = (Nat.repr n).data := by rw [h]
  rcases Nat.eq_zero_or_pos m with rfl | hm <;> rcases Nat.eq_zero_or_pos n with rfl | hn
  · rfl
  · exfalso
    rw [repr_data_of_pos hn] at hdata
    have h0 : (Nat.repr 0).data = ['0'] := by decide
    rw [h0] at hdata
    have : (Nat.digits 10 n).map Nat.digitChar = ['0'] := by
      have := congrArg List.reverse hdata
      simp at this
      exact this.symm
    cases hd : Nat.digits 10 n with
    | nil => rw [hd] at this; simp at this
    | cons d ds =>
      rw [hd] at this
      cases ds with
      | nil =>
        simp only [List.map_cons, List.map_nil, List.cons.injEq] at this
        have hdlt : d < 10 :=
          Nat.digits_lt_base (by norm_num) (hd ▸ List.mem_cons_self d [])
        have hd0 : d = 0 := digitChar_inj_lt d hdlt 0 (by norm_num) (by simpa using this.1)
        have hzero : Nat.digits 10 n = [0] := by rw [hd, hd0]
        have h1 := Nat.ofDigits_digits 10 n
        rw [hzero] at h1
        have : n = 0 := by simpa [Nat.ofDigits] using h1.symm
        omega
      | cons e es => simp at this
  · exfalso
    rw [repr_data_of_pos hm] at hdata
    have h0 : (Nat.repr 0).data = ['0'] := by decide
    rw [h0] at hdata
    have : (Nat.digits 10 m).map Nat.digitChar = ['0'] := by
      have := congrArg List.reverse hdata
      simp at this
      exact this
    cases hd : Nat.digits 10 m with
    | nil => rw [hd] at this; simp at this
    | cons d ds =>
      rw [hd] at this
      cases ds with
      | nil =>
        simp only [List.map_cons, List.map_nil, List.cons.injEq] at this
        have hdlt : d < 10 :=
          Nat.digits_lt_base (by norm_num) (hd ▸ List.mem_cons_self d [])
        have hd0 : d = 0 := digitChar_inj_lt d hdlt 0 (by norm_num) (by simpa using this.1)
        have hzero : Nat.digits 10 m = [0] := by rw [hd, hd0]
        have h1 := Nat.ofDigits_digits 10 m
        rw [hzero] at h1
        have : m = 0 := by simpa [Nat.ofDigits] using h1.symm
        omega
      | cons e es => simp at this
  · rw [repr_data_of_pos hm, repr_data_of_pos hn] at hdata
    have hrev := congrArg List.reverse hdata
    simp only [List.reverse_reverse] at hrev
    have hdig : Nat.digits 10 m = Nat.digits 10 n :=
      map_digitChar_inj _ _
        (fun x hx => Nat.digits_lt_base (by norm_num) hx)
        (fun x hx => Nat.digits_lt_base (by norm_num) hx) hrev
    calc m = Nat.ofDigits 10 (Nat.digits 10 m) := (Nat.ofDigits_digits 10 m).symm
      _ = Nat.ofDigits 10 (Nat.digits 10 n) := by rw [hdig]
      _ = n := Nat.ofDigits_digits 10 n

theorem digits_dash_append_inj :
    ∀ (a b u v : List Char), (∀ c ∈ a, c.isDigit = true) →
      (∀ c ∈ b, c.isDigit = true) →
      a ++ '-' :: u = b ++ '-' :: v → a = b ∧ u = v := by
  intro a
  induction a with
  | nil =>
    intro b u v _ hb h
    cases b with
    | nil => simpa using h
    | cons d bs =>
      exfalso
      simp only [List.nil_append, List.cons_append, List.cons.injEq] at h
      have : d.isDigit = true := hb d (List.mem_cons_self d bs)
      rw [← h.1] at this
      simp [Char.isDigit] at this
  | cons c as ih =>
    intro b u v ha hb h
    cases b with
    | nil =>
      exfalso
      simp only [List.cons_append, List.nil_append, List.cons.injEq] at h
      have : c.isDigit = true := ha c (List.mem_cons_self c as)
      rw [h.1] at this
      simp [Char.isDigit] at this
    | cons d bs =>
      simp only [List.cons_append, List.cons.injEq] at h
      obtain ⟨has, hu⟩ := ih bs u v
        (fun x hx => ha x (List.mem_cons.mpr (Or.inr hx)))
        (fun x hx => hb x (List.mem_cons.mpr (Or.inr hx))) h.2
      exact ⟨by rw [h.1, has], hu⟩

/-- C4: heading-id namespacing is injective across documents: distinct
ordinals give disjoint namespaced ids, whatever the local ids are. -/
theorem newHeadingId_inj_across_sections (i j : Nat) (u v : String)
    (hij : i ≠ j) : newHeadingId i u ≠ newHeadingId j v := by
  intro h
  unfold newHeadingId at h
  have hdata := congrArg String.data h
  simp only [String.data_append, List.append_assoc] at hdata
  have hcancel := List.append_cancel_left hdata
  have hdash : (Nat.repr i).data ++ '-' :: u.data =
      (Nat.repr j).data ++ '-' :: v.data := hcancel
  obtain ⟨hrepr, _⟩ :=
    digits_dash_append_inj _ _ _ _ (repr_data_isDigit i) (repr_data_isDigit j) hdash
  exact hij (repr_injective (String.toList_inj.mp hrepr))

/-- Witness for C4 at concrete colliding-looking inputs. -/
theorem newHeadingId_inj_witness :
    newHeadingId 1 "2-x" ≠ newHeadingId 12 "x" :=
  newHeadingId_inj_across_sections 1 12 "2-x" "x" (by decide)

/-! ### Paths and the document loader (`find_markdown_files`, cli.py 65-101) -/

theorem sepFree_append_inj (c : Char) :
    ∀ a b u v : List Char, c ∉ a → c ∉ b →
      a ++ c :: u = b ++ c :: v → a = b ∧ u = v := by
  intro a
  induction a with
  | nil =>
    intro b u v _ hb h
    cases b with
    | nil => simpa using h
    | cons d bs =>
      exfalso
      simp only [List.nil_append, List.cons_append, List.cons.injEq] at h
      exact hb (h.1 ▸ List.mem_cons_self d bs)
  | cons x as ih =>
    intro b u v ha hb h
    cases b with
    | nil =>
      exfalso
      simp only [List.cons_append, List.nil_append, List.cons.injEq] at h
      exact ha (h.1 ▸ List.mem_cons_self x as)
    | cons d bs =>
      simp only [List.cons_append, List.cons.injEq] at h
      obtain ⟨has, hu⟩ := ih bs u v
        (fun hx => ha (List.mem_cons.mpr (Or.inr hx)))
        (fun hx => hb (List.mem_cons.mpr (Or.inr hx))) h.2
      exact ⟨by rw [h.1, has], hu⟩

theorem joinCh_inj (c : Char) :
    ∀ ls1 ls2 : List (List Char),
      (∀ l ∈ ls1, l ≠ [] ∧ c ∉ l) → (∀ l ∈ ls2, l ≠ [] ∧ c ∉ l) →
      joinCh c ls1 = joinCh c ls2 → ls1 = ls2 := by
  intro ls1
  induction ls1 with
  | nil =>
    intro ls2 _ h2 h
    cases ls2 with
    | nil => rfl
    | cons m ms =>
      exfalso
      cases ms with
      | nil =>
        simp only [joinCh] at h
        exact (h2 m (List.mem_cons_self m [])).1 h.symm
      | cons m' ms' =>
        simp only [joinCh] at h
        have := congrArg List.length h
        simp at this
        omega
  | cons l ls ih =>
    intro ls2 h1 h2 h
    cases ls2 with
    | nil =>
      exfalso
      cases ls with
      | nil =>
        simp only [joinCh] at h
        exact (h1 l (List.mem_cons_self l [])).1 h
      | cons l' ls' =>
        simp only [joinCh] at h
        have := congrArg List.length h
        simp at this
    | cons m ms =>
      cases ls with
      | nil =>
        cases ms with
        | nil => simpa [joinCh] using h
        | cons m' ms' =>
          exfalso
          simp only [joinCh] at h
          have hcl : c ∉ l := (h1 l (List.mem_cons_self l _)).2
          rw [h] at hcl
          exact hcl (List.mem_append.mpr (Or.inr (List.mem_cons_self c _)))
      | cons l' ls' =>
        cases ms with
        | nil =>
          exfalso
          simp only [joinCh] at h
          have hcm : c ∉ m := (h2 m (List.mem_cons_self m _)).2
          rw [← h] at hcm
          exact hcm (List.mem_append.mpr (Or.inr (List.mem_cons_self c _)))
        | cons m' ms' =>
          simp only [joinCh] at h
          obtain ⟨hlm, hrest⟩ := sepFree_append_inj c l m _ _
            (h1 l (List.mem_cons_self l _)).2 (h2 m (List.mem_cons_self m _)).2 h
          have htail : l' :: ls' = m' :: ms' :=
            ih (m' :: ms')
              (fun t ht => h1 t (List.mem_cons.mpr (Or.inr ht)))
              (fun t ht => h2 t (List.mem_cons.mpr (Or.inr ht)))
              (by simpa [joinCh] using hrest)
          rw [hlm, htail]

theorem pathStr_inj {p q : RelPath} (hp : wfPath p) (hq : wfPath q)
    (h : pathStr p = pathStr q) : p = q := by
  unfold pathStr at h
  rw [if_neg (by simpa using hp.1), if_neg (by simpa using hq.1)] at h
  have hjoin : joinCh '/' (p.map String.data) = joinCh '/' (q.map String.data) :=
    List.asString_inj.mp h
  have hmaps := joinCh_inj '/' _ _
    (by
      intro l hl
      obtain ⟨s, hs, rfl⟩ := List.mem_map.mp hl
      have := hp.2 s hs
      exact ⟨fun hnil => this.1 (by
        have : s.data = ("" : String).data := by simpa using hnil
        exact String.toList_inj.mp this), this.2⟩)
    (by
      intro l hl
      obtain ⟨s, hs, rfl⟩ := List.mem_map.mp hl
      have := hq.2 s hs
      exact ⟨fun hnil => this.1 (by
        have : s.data = ("" : String).data := by simpa using hnil
        exact String.toList_inj.mp this), this.2⟩)
    hjoin
  exact List.map_injective_iff.mpr (fun a b hab => String.toList_inj.mp hab) hmaps

theorem sortKey_inj {root : String} {p q : RelPath} (hp : wfPath p)
    (hq : wfPath q) (h : sortKey root p = sortKey root q) : p = q := by
  unfold sortKey at h
  have hdata := congrArg String.data h
  simp only [String.data_append, List.append_assoc] at hdata
  have := List.append_cancel_left hdata
  have := List.append_cancel_left this
  exact pathStr_inj hp hq (String.toList_inj.mp this)

theorem getLast?_cons_eq (x : α) (l : List α) :
    (x :: l).getLast? =
      match l.getLast? with
      | some y => some y
      | none => some x := by
  induction l generalizing x with
  | nil => simp
  | cons a as ih =>
    rw [List.getLast?_cons_cons, ih a]
    cases has : as.getLast? with
    | none => simp
    | some y => simp

theorem lastMatch_eq_getLast (p : α → Bool) (l : List α) :
    ∀ acc, l.foldl (fun acc f => if p f then some f else acc) acc =
      match (l.filter p).getLast? with
      | some x => some x
      | none => acc := by
  induction l with
  | nil => intro acc; simp
  | cons x xs ih =>
    intro acc
    by_cases hx : p x = true
    · simp only [List.foldl_cons, List.filter_cons, hx, if_true]
      rw [ih (some x), getLast?_cons_eq x (xs.filter p)]
      cases hm : (xs.filter p).getLast? with
      | none => simp
      | some y => simp
    · have hx' : p x = false := by simpa using hx
      simp only [List.foldl_cons, List.filter_cons, hx', Bool.false_eq_true, if_false]
      exact ih acc

theorem sorted_perm_eq_of_nodup_keys {α β : Type} [LinearOrder β] (key : α → β) :
    ∀ l₁ l₂ : List α, List.Perm l₁ l₂ →
      l₁.Sorted (fun a b => key a ≤ key b) →
      l₂.Sorted (fun a b => key a ≤ key b) →
      (l₁.map key).Nodup → l₁ = l₂ := by
  intro l₁
  induction l₁ with
  | nil =>
    intro l₂ hperm _ _ _
    exact (hperm.symm.eq_nil).symm
  | cons a t₁ ih =>
    intro l₂ hperm hs₁ hs₂ hnd
    cases l₂ with
    | nil => exact absurd hperm.eq_nil (by simp)
    | cons b t₂ =>
      have hain : a ∈ b :: t₂ := hperm.subset (List.mem_cons_self a t₁)
      have hbin : b ∈ a :: t₁ := hperm.symm.subset (List.mem_cons_self b t₂)
      obtain ⟨hs1h, hs1t⟩ := List.sorted_cons.mp hs₁
      obtain ⟨hs2h, hs2t⟩ := List.sorted_cons.mp hs₂
      have hkey : key a = key b := by
        rcases List.mem_cons.mp hain with h | h
        · rw [h]
        · rcases List.mem_cons.mp hbin with h' | h'
          · rw [h']
          · exact le_antisymm (hs1h b h') (hs2h a h)
      rcases List.mem_cons.mp hain with h | h
      · subst h
        have htail : List.Perm t₁ t₂ := hperm.cons_inv
        rw [ih t₂ htail hs1t hs2t (by
          simp only [List.map_cons, List.nodup_cons] at hnd
          exact hnd.2)]
      · exfalso
        have hne : b ≠ a := by
          intro hba
          have htail : List.Perm t₁ t₂ := by
            rw [hba] at hperm
            exact hperm.cons_inv
          have hat : a ∈ t₁ := htail.symm.subset h
          simp only [List.map_cons, List.nodup_cons] at hnd
          exact hnd.1 (List.mem_map.mpr ⟨a, hat, rfl⟩)
        have hbt : b ∈ t₁ := by
          rcases List.mem_cons.mp hbin with h' | h'
          · exact absurd h' hne
          · exact h'
        simp only [List.map_cons, List.nodup_cons] at hnd
        exact hnd.1 (List.mem_map.mpr ⟨b, hbt, hkey.symm ▸ rfl⟩)

theorem findMarkdownFiles_perm_inv (root : String)
    (files files' : List RelPath) (e : RelPath)
    (hwf : ∀ p ∈ files, wfPath p)
    (hnd : files.Nodup)
    (hperm : List.Perm files' files)
    (hone : files.filter
      (fun p => isIndexName (fileName p) && isMdName (fileName p)) = [e]) :
    ∃ others,
      findMarkdownFiles root true files = .ok (e :: others) ∧
      findMarkdownFiles root true files' = .ok (e :: others) ∧
      isIndexName (fileName e) = true ∧
      others.Sorted (pathLe root) ∧
      List.Perm others (files.filter
        (fun p => !isIndexName (fileName p) && isMdName (fileName p))) := by
  have hmem : e ∈ files.filter
      (fun p => isIndexName (fileName p) && isMdName (fileName p)) := by
    rw [hone]; exact List.mem_cons_self e []
  have he := List.mem_filter.mp hmem
  have hsplit : isIndexName (fileName e) = true ∧ isMdName (fileName e) = true := by
    simpa using he.2
  have heIdx : isIndexName (fileName e) = true := hsplit.1
  have heMd : isMdName (fileName e) = true := hsplit.2
  have hone' : files'.filter
      (fun p => isIndexName (fileName p) && isMdName (fileName p)) = [e] :=
    List.Perm.eq_singleton (hone ▸ hperm.filter _)
  -- the filtered markdown lists of both discovery orders
  have hmds_ne : (files.filter (fun p => isMdName (fileName p))).isEmpty = false := by
    have : e ∈ files.filter (fun p => isMdName (fileName p)) :=
      List.mem_filter.mpr ⟨he.1, heMd⟩
    cases hf : files.filter (fun p => isMdName (fileName p)) with
    | nil => rw [hf] at this; cases this
    | cons x xs => simp
  have hmds_ne' : (files'.filter (fun p => isMdName (fileName p))).isEmpty = false := by
    have hin : e ∈ files'.filter (fun p => isMdName (fileName p)) := by
      have : e ∈ files' :=
        hperm.symm.subset he.1
      exact List.mem_filter.mpr ⟨this, heMd⟩
    cases hf : files'.filter (fun p => isMdName (fileName p)) with
    | nil => rw [hf] at hin; cases hin
    | cons x xs => simp
  have hlastf : ∀ g : List RelPath, g.filter
        (fun p => isIndexName (fileName p) && isMdName (fileName p)) = [e] →
      lastMatch (fun p => isIndexName (fileName p))
        (g.filter (fun p => isMdName (fileName p))) = some e := by
    intro g hg
    unfold lastMatch
    rw [lastMatch_eq_getLast, List.filter_filter, hg]
    rfl
  -- the sorted non-entry selections agree
  have hothers : ∀ g : List RelPath,
      (g.filter (fun p => isMdName (fileName p))).filter
          (fun p => !isIndexName (fileName p)) =
        g.filter (fun p => !isIndexName (fileName p) && isMdName (fileName p)) := by
    intro g
    rw [List.filter_filter]
  have hpermOthers : List.Perm
      (files'.filter (fun p => !isIndexName (fileName p) && isMdName (fileName p)))
      (files.filter (fun p => !isIndexName (fileName p) && isMdName (fileName p))) :=
    hperm.filter _
  have hsubwf : ∀ p ∈ files.filter
      (fun p => !isIndexName (fileName p) && isMdName (fileName p)), wfPath p :=
    fun p hp => hwf p (List.mem_filter.mp hp).1
  have hsubnd : (files.filter
      (fun p => !isIndexName (fileName p) && isMdName (fileName p))).Nodup :=
    hnd.filter _
  have hsort_eq :
      List.insertionSort (pathLe root)
        (files'.filter (fun p => !isIndexName (fileName p) && isMdName (fileName p))) =
      List.insertionSort (pathLe root)
        (files.filter (fun p => !isIndexName (fileName p) && isMdName (fileName p))) := by
    apply sorted_perm_eq_of_nodup_keys (sortKey root)
    · exact ((List.perm_insertionSort _ _).trans hpermOthers).trans
        (List.perm_insertionSort _ _).symm
    · exact List.sorted_insertionSort (pathLe root) _
    · exact List.sorted_insertionSort (pathLe root) _
    · have hndmap : ((files'.filter
          (fun p => !isIndexName (fileName p) && isMdName (fileName p))).map
            (sortKey root)).Nodup := by
        apply List.Nodup.map_on
        · intro x hx y hy hxy
          exact sortKey_inj
            (hwf x (hperm.subset (List.mem_filter.mp hx).1))
            (hwf y (hperm.subset (List.mem_filter.mp hy).1)) hxy
        · exact ((hperm.nodup_iff).mpr hnd).filter _
      exact ((List.perm_insertionSort (pathLe root) _).map (sortKey root)).nodup_iff.mpr hndmap
  refine ⟨List.insertionSort (pathLe root)
    (files.filter (fun p => !isIndexName (fileName p) && isMdName (fileName p))),
    ?_, ?_, heIdx, List.sorted_insertionSort (pathLe root) _,
    List.perm_insertionSort (pathLe root) _⟩
  · unfold findMarkdownFiles
    rw [if_neg (by simp), if_neg (by simp [hmds_ne]), hothers files,
      hlastf files hone]
  · unfold findMarkdownFiles
    rw [if_neg (by simp), if_neg (by simp [hmds_ne']), hothers files',
      hlastf files' hone', hsort_eq]

/-- C1 counterexample: with two entry-named files the produced sequence is
not a pure function of the set of paths — two discovery orders of the same
set give different sequences (and the extra entry file is dropped). -/
theorem findMarkdownFiles_not_order_independent :
    List.Perm [(["index.md"] : RelPath), ["sub", "index.md"], ["a.md"]]
      [(["sub", "index.md"] : RelPath), ["index.md"], ["a.md"]] ∧
    findMarkdownFiles "docs" true [["index.md"], ["sub", "index.md"], ["a.md"]] ≠
      findMarkdownFiles "docs" true [["sub", "index.md"], ["index.md"], ["a.md"]] := by
  constructor
  · decide
  · have h1 : findMarkdownFiles "docs" true
        [["index.md"], ["sub", "index.md"], ["a.md"]] =
        .ok [["sub", "index.md"], ["a.md"]] := rfl
    have h2 : findMarkdownFiles "docs" true
        [["sub", "index.md"], ["index.md"], ["a.md"]] =
        .ok [["index.md"], ["a.md"]] := rfl
    rw [h1, h2]
    simp

/-- Witness for the amended C1 theorem at a concrete directory. -/
theorem findMarkdownFiles_perm_inv_witness :
    ∃ others,
      findMarkdownFiles "docs" true [["b.md"], ["index.md"], ["a.md"]] =
        .ok (["index.md"] :: others) ∧
      findMarkdownFiles "docs" true [["index.md"], ["a.md"], ["b.md"]] =
        .ok (["index.md"] :: others) ∧
      isIndexName (fileName ["index.md"]) = true ∧
      others.Sorted (pathLe "docs") ∧
      List.Perm others
        ([(["b.md"] : RelPath), ["index.md"], ["a.md"]].filter
          (fun p => !isIndexName (fileName p) && isMdName (fileName p))) :=
  findMarkdownFiles_perm_inv "docs"
    [["b.md"], ["index.md"], ["a.md"]] [["index.md"], ["a.md"], ["b.md"]]
    ["index.md"] (by decide) (by decide) (by decide) (by decide)

/-- C8: a directory containing `index.markdown` (plus another markdown
file) is rejected with the missing-entry error, because the loader only
globs `*.md` and never discovers `index.markdown`, although its own
entry-name check lists `index.markdown` as acceptable. -/
theorem indexMarkdown_not_discovered :
    findMarkdownFiles "docs" true [["index.markdown"], ["a.md"]] =
      .error .indexMissing ∧
    isIndexName "index.markdown" = true ∧
    isMdName "index.markdown" = false := by
  refine ⟨rfl, by decide, by decide⟩

/-! ### Frontmatter parsing (`parse_frontmatter`, cli.py 103-134) -/

/-- C7 (amended): a frontmatter block whose opening delimiter has no
closing line is treated as absent — empty mapping, body returned
unchanged, and no warning; a delimited block that fails to parse yields an
empty mapping together with a (non-fatal) warning. -/
theorem parseFrontmatter_malformed (yp : YamlParser) (content : String) :
    (firstDashIdx 1 (fmLines content).tail = none →
      parseFrontmatter yp content = ([], content, [])) ∧
    (∀ e, pyStartsWith "---".data (pyStripL content.data) = true →
      firstDashIdx 1 (fmLines content).tail = some e →
      yp (fmSectionOf content e) = none →
      parseFrontmatter yp content =
        ([], fmBodyOf content e, ["Warning: Failed to parse frontmatter YAML"])) := by
  constructor
  · intro hnone
    unfold parseFrontmatter
    split
    · split
      · rw [hnone]
      · rfl
    · rfl
  · intro e hstart hsome hyp
    unfold parseFrontmatter
    rw [if_pos hstart]
    have hlen : (fmLines content).length > 1 := by
      cases hl : (fmLines content) with
      | nil => rw [hl] at hsome; simp [firstDashIdx] at hsome
      | cons a as =>
        cases as with
        | nil => rw [hl] at hsome; simp [firstDashIdx] at hsome
        | cons b bs => simp [hl]
    rw [if_pos hlen, hsome]
    show (match yp (fmSectionOf content e) with
      | some fm => (fm, fmBodyOf content e, [])
      | none => ([], fmBodyOf content e,
          ["Warning: Failed to parse frontmatter YAML"])) = _
    rw [hyp]

/-- C7 counterexample: an unclosed frontmatter block produces an empty
mapping and leaves the body unchanged, but — against the claim — emits no
warning at all. -/
theorem parseFrontmatter_unclosed_warningless :
    parseFrontmatter (fun _ => none) "---\ntags: [a]" =
      ([], "---\ntags: [a]", []) := by
  rfl

/-- Witness for the amended C7 theorem at concrete inputs. -/
theorem parseFrontmatter_malformed_witness :
    parseFrontmatter (fun _ => none) "---\nonly an opening" =
      ([], "---\nonly an opening", []) ∧
    parseFrontmatter (fun _ => none) "---\nbad: [\n---\nbody" =
      ([], fmBodyOf "---\nbad: [\n---\nbody" 2,
        ["Warning: Failed to parse frontmatter YAML"]) :=
  ⟨(parseFrontmatter_malformed (fun _ => none) "---\nonly an opening").1 (by decide),
   (parseFrontmatter_malformed (fun _ => none) "---\nbad: [\n---\nbody").2 2
     (by decide) (by decide) rfl⟩

/-! ### Cross-document link resolution
(`process_internal_links` cli.py 346-368, `find_file_index_by_path`
cli.py 370-411)

`pathlib` paths are modelled by their component lists plus an
absolute-path flag; `Path.resolve()` is modelled as joining onto the
process working directory `cwd` (an absolute component list) and
eliminating `..` components; `input_folder.resolve()` is the absolute
component list `rootAbs` of the input folder. -/

theorem wfFile_wfPath {p : RelPath} (h : wfFile p) : wfPath p :=
  ⟨h.1, fun s hs => ⟨(h.2 s hs).1, (h.2 s hs).2.1⟩⟩

theorem foldl_normAbsStep_no_dots :
    ∀ (l : List String) (acc : List String), (∀ p ∈ l, p ≠ "..") →
      l.foldl normAbsStep acc = acc ++ l := by
  intro l
  induction l with
  | nil => intro acc _; simp
  | cons x xs ih =>
    intro acc h
    have hx : x ≠ ".." := h x (List.mem_cons_self x xs)
    simp only [List.foldl_cons, normAbsStep, if_neg hx]
    rw [ih (acc ++ [x]) (fun p hp => h p (List.mem_cons.mpr (Or.inr hp)))]
    simp

theorem normAbs_no_dots {l : List String} (h : ∀ p ∈ l, p ≠ "..") :
    normAbs l = l := by
  unfold normAbs
  rw [foldl_normAbsStep_no_dots l [] h]
  simp

theorem listPre_iff [DecidableEq α] (r t : List α) :
    listPre r t = true ↔ ∃ u, t = r ++ u := by
  induction r generalizing t with
  | nil => simp [listPre]
  | cons a ps ih =>
    cases t with
    | nil =>
      simp only [listPre]
      constructor
      · intro h; cases h
      · rintro ⟨u, hu⟩; cases hu
    | cons b ls =>
      simp only [listPre, Bool.and_eq_true, decide_eq_true_eq]
      rw [ih ls]
      constructor
      · rintro ⟨rfl, u, rfl⟩; exact ⟨u, rfl⟩
      · rintro ⟨u, hu⟩
        injection hu with h1 h2
        exact ⟨h1.symm, u, h2⟩

theorem listPre_append [DecidableEq α] (r u : List α) :
    listPre r (r ++ u) = true :=
  (listPre_iff r (r ++ u)).mpr ⟨u, rfl⟩

theorem drop_length_append (a b : List α) : (a ++ b).drop a.length = b := by
  induction a with
  | nil => simp
  | cons x xs ih => simp [ih]

theorem relTo_append (r u : List String) : relTo (r ++ u) r = some u := by
  unfold relTo
  rw [if_pos (listPre_append r u), drop_length_append]

theorem map_noop {f : α → α} : ∀ l : List α, (∀ c ∈ l, f c = c) → l.map f = l := by
  intro l
  induction l with
  | nil => intro _; rfl
  | cons x xs ih =>
    intro h
    simp only [List.map_cons, h x (List.mem_cons_self x xs),
      ih (fun c hc => h c (List.mem_cons.mpr (Or.inr hc)))]

theorem slashify_of_no_backslash {s : String} (h : ('\\' : Char) ∉ s.data) :
    slashify s = s := by
  unfold slashify
  rw [map_noop s.data (fun c hc => by
    have : c ≠ '\\' := fun hc' => h (hc' ▸ hc)
    simp [this])]

theorem joinCh_not_mem {c : Char} {sep : Char} (hcs : c ≠ sep) :
    ∀ ls : List (List Char), (∀ l ∈ ls, c ∉ l) → c ∉ joinCh sep ls := by
  intro ls
  induction ls with
  | nil => intro _; simp [joinCh]
  | cons l rest ih =>
    intro h
    cases rest with
    | nil => simpa [joinCh] using h l (List.mem_cons_self l [])
    | cons m ms =>
      simp only [joinCh]
      intro hmem
      rcases List.mem_append.mp hmem with h' | h'
      · exact h l (List.mem_cons_self l _) h'
      · rcases List.mem_cons.mp h' with h'' | h''
        · exact hcs h''
        · exact ih (fun t ht => h t (List.mem_cons.mpr (Or.inr ht))) h''

theorem not_mem_pathStr {c : Char} {p : RelPath} (hcs : c ≠ '/') (hcd : c ≠ '.')
    (h : ∀ s ∈ p, c ∉ s.data) : c ∉ (pathStr p).data := by
  unfold pathStr
  split
  · intro hmem
    have : (".".data : List Char) = ['.'] := rfl
    rw [this] at hmem
    rcases List.mem_singleton.mp hmem with h'
    exact hcd h'
  · rw [data_asString]
    exact joinCh_not_mem hcs _ (fun l hl => by
      obtain ⟨s, hs, rfl⟩ := List.mem_map.mp hl
      exact h s hs)

theorem mem_of_mem_splitCh_seg {c : Char} {l s : List Char} {x : Char}
    (hs : s ∈ splitCh c l) (hx : x ∈ s) : x ∈ l := by
  induction l generalizing s with
  | nil =>
    simp [splitCh] at hs
    rw [hs] at hx
    cases hx
  | cons y ys ih =>
    simp only [splitCh] at hs
    split at hs
    · rcases List.mem_cons.mp hs with h | h
      · rw [h] at hx; cases hx
      · exact List.mem_cons.mpr (Or.inr (ih h hx))
    · cases hsp : splitCh c ys with
      | nil => exact absurd hsp (splitCh_ne_nil c ys)
      | cons t rest =>
        rw [hsp] at hs
        rcases List.mem_cons.mp hs with h | h
        · subst h
          rcases List.mem_cons.mp hx with h' | h'
          · exact List.mem_cons.mpr (Or.inl h')
          · exact List.mem_cons.mpr
              (Or.inr (ih (hsp ▸ List.mem_cons_self t rest) h'))
        · exact List.mem_cons.mpr
            (Or.inr (ih (hsp ▸ List.mem_cons.mpr (Or.inr h)) hx))

theorem pathParts_chars {href : String} {s : String} (hs : s ∈ pathParts href) :
    s ≠ "" ∧ ('/' : Char) ∉ s.data ∧ ∀ x ∈ s.data, x ∈ href.data := by
  unfold pathParts at hs
  have hs' := List.mem_filter.mp hs
  obtain ⟨l, hl, rfl⟩ := List.mem_map.mp hs'.1
  have hcond := hs'.2
  simp only [Bool.and_eq_true, bne_iff_ne, ne_eq, decide_eq_true_eq] at hcond
  refine ⟨by simpa using hcond.1, ?_, ?_⟩
  · exact not_mem_of_mem_splitCh hl
  · intro x hx
    exact mem_of_mem_splitCh_seg hl hx

theorem firstIdxFrom_congr {p q : α → Bool} :
    ∀ (l : List α) (n : Nat), (∀ x ∈ l, p x = q x) →
      firstIdxFrom p n l = firstIdxFrom q n l := by
  intro l
  induction l with
  | nil => intro n _; rfl
  | cons x xs ih =>
    intro n h
    simp only [firstIdxFrom, h x (List.mem_cons_self x xs)]
    split
    · rfl
    · exact ih (n + 1) (fun y hy => h y (List.mem_cons.mpr (Or.inr hy)))

theorem beq_pathStr_eq_beq {f g : RelPath} (hf : wfPath f) (hg : wfPath g) :
    (pathStr f == pathStr g) = (f == g) := by
  rw [Bool.eq_iff_iff]
  simp only [beq_iff_eq]
  constructor
  · exact pathStr_inj hf hg
  · intro h; rw [h]

/-- With the working directory equal to the (normalized) input root, the
path tier of `find_file_index_by_path` on a plain relative link (no
leading `/`, `./` or `../`, no inner `..`) is exactly resolution of the
link against the containing document's directory inside the document
tree. -/
theorem pathTier_in_tree (rootAbs : List String) (files : List RelPath)
    (i : Nat) (href : String)
    (hroot : wfAbs rootAbs)
    (hfiles : ∀ p ∈ files, wfFile p)
    (hi : i < files.length)
    (habs : strIsAbs href = false)
    (hdot : pyStartsWith "./".data href.data = false)
    (hddot : pyStartsWith "../".data href.data = false)
    (hnb : ('\\' : Char) ∉ href.data)
    (hne : pathParts href ≠ [])
    (hnd : ∀ s ∈ pathParts href, s ≠ "..") :
    pathTierIdx rootAbs rootAbs files i href =
      firstIdxFrom
        (fun f => f == (files.getD i []).dropLast ++ pathParts href)
        0 files := by
  have hcur : ∀ s ∈ (files.getD i []).dropLast, wfPart s := by
    intro s hs
    have hmem : s ∈ files.getD i [] := (List.dropLast_sublist _).subset hs
    have hgd : files.getD i [] ∈ files := by
      rw [List.getD_eq_getElem files [] hi]
      exact List.getElem_mem hi
    exact (hfiles _ hgd).2 s hmem
  have hrest : ∀ s ∈ (files.getD i []).dropLast ++ pathParts href,
      s ≠ "" ∧ ('/' : Char) ∉ s.data ∧ ('\\' : Char) ∉ s.data ∧ s ≠ ".." := by
    intro s hs
    rcases List.mem_append.mp hs with h | h
    · have := hcur s h
      exact ⟨this.1, this.2.1, this.2.2.1, this.2.2.2.1⟩
    · have := pathParts_chars h
      exact ⟨this.1, this.2.1, fun hb => hnb (this.2.2 '\\' hb), hnd s h⟩
  have htgt : linkTarget ((files.getD i []).dropLast) href =
      ⟨false, (files.getD i []).dropLast ++ pathParts href⟩ := by
    unfold linkTarget
    rw [hddot, hdot]
    simp only [Bool.false_eq_true, if_false]
    unfold pyDiv
    rw [habs]
    simp
  have hresolve : pyResolve rootAbs (linkTarget ((files.getD i []).dropLast) href) =
      rootAbs ++ ((files.getD i []).dropLast ++ pathParts href) := by
    rw [htgt]
    unfold pyResolve normAbs
    simp only [Bool.false_eq_true, if_false]
    rw [List.foldl_append,
      foldl_normAbsStep_no_dots rootAbs [] (fun p hp => (hroot p hp).2.2.2.1),
      foldl_normAbsStep_no_dots _ _ (fun p hp => (hrest p hp).2.2.2)]
    simp
  have hrel : linkTargetRelStr rootAbs rootAbs ((files.getD i []).dropLast) href =
      pathStr ((files.getD i []).dropLast ++ pathParts href) := by
    unfold linkTargetRelStr
    rw [hresolve, normAbs_no_dots (fun p hp => (hroot p hp).2.2.2.1), relTo_append]
  unfold pathTierIdx
  rw [hrel]
  apply firstIdxFrom_congr
  intro f hf
  have hwf_f : wfPath f := wfFile_wfPath (hfiles f hf)
  have hwf_t : wfPath ((files.getD i []).dropLast ++ pathParts href) := by
    refine ⟨?_, fun s hs => ⟨(hrest s hs).1, (hrest s hs).2.1⟩⟩
    intro hnil
    rcases List.append_eq_nil.mp hnil with ⟨_, h2⟩
    exact hne h2
  rw [slashify_of_no_backslash (not_mem_pathStr (by decide) (by decide)
      (fun s hs => ((hfiles f hf).2 s hs).2.2.1)),
    slashify_of_no_backslash (not_mem_pathStr (by decide) (by decide)
      (fun s hs => (hrest s hs).2.2.1))]
  exact beq_pathStr_eq_beq hwf_f hwf_t

theorem findAB_of_ne (cwd rootAbs : List String) (t : String)
    (hrel : linkTargetRelStr cwd rootAbs ["x"] "../b.md" = t)
    (hsl : slashify t = t)
    (h0 : t ≠ "index.md") (h2 : t ≠ "x/a.md") :
    findFileIndexByPath cwd rootAbs
      [["index.md"], ["b.md"], ["x", "a.md"]] 2 "../b.md" = some 1 := by
  unfold findFileIndexByPath pathTierIdx
  have hcd : (([["index.md"], ["b.md"], ["x", "a.md"]] : List RelPath).getD 2
      []).dropLast = ["x"] := rfl
  rw [hcd, hrel]
  by_cases h1 : t = "b.md"
  · subst h1
    rfl
  · have e0 : (slashify (pathStr ["index.md"]) == slashify t) = false := by
      rw [hsl]
      show ("index.md" == t) = false
      exact beq_eq_false_iff_ne.mpr (fun h => h0 h.symm)
    have e1 : (slashify (pathStr ["b.md"]) == slashify t) = false := by
      rw [hsl]
      show ("b.md" == t) = false
      exact beq_eq_false_iff_ne.mpr (fun h => h1 h.symm)
    have e2 : (slashify (pathStr ["x", "a.md"]) == slashify t) = false := by
      rw [hsl]
      show ("x/a.md" == t) = false
      exact beq_eq_false_iff_ne.mpr (fun h => h2 h.symm)
    simp only [firstIdxFrom, e0, e1, e2, Bool.false_eq_true, if_false]
    rfl

/-- The link-resolution round trip of the spec: document A at `x/a.md`
links `../b.md`, document B lives at `b.md`; whatever the (wellformed)
process working directory and input-root location are, the resolver finds
B's ordinal. -/
theorem findFileIndexByPath_roundTrip (cwd rootAbs : List String)
    (hcwd : wfAbs cwd) (hroot : wfAbs rootAbs) :
    findFileIndexByPath cwd rootAbs
      [["index.md"], ["b.md"], ["x", "a.md"]] 2 "../b.md" = some 1 := by
  have hresolve : pyResolve cwd (linkTarget ["x"] "../b.md") = cwd ++ ["b.md"] := by
    have htgt : linkTarget ["x"] "../b.md" = ⟨false, ["x", "..", "b.md"]⟩ := rfl
    rw [htgt]
    unfold pyResolve normAbs
    simp only [Bool.false_eq_true, if_false]
    rw [List.foldl_append,
      foldl_normAbsStep_no_dots cwd [] (fun p hp => (hcwd p hp).2.2.2.1)]
    simp only [List.nil_append, List.foldl_cons, List.foldl_nil]
    show normAbsStep (normAbsStep (normAbsStep cwd "x") "..") "b.md" = cwd ++ ["b.md"]
    unfold normAbsStep
    simp [List.dropLast_concat]
  have hnroot : normAbs rootAbs = rootAbs :=
    normAbs_no_dots (fun p hp => (hroot p hp).2.2.2.1)
  by_cases hpre : listPre rootAbs (cwd ++ ["b.md"]) = true
  · obtain ⟨u, hu⟩ := (listPre_iff _ _).mp hpre
    have hwfu : ∀ s ∈ u, wfPart s := by
      intro s hs
      have hmem : s ∈ cwd ++ ["b.md"] := by
        rw [hu]
        exact List.mem_append.mpr (Or.inr hs)
      rcases List.mem_append.mp hmem with h | h
      · exact hcwd s h
      · rw [List.mem_singleton.mp h]
        decide
    have hrel : linkTargetRelStr cwd rootAbs ["x"] "../b.md" = pathStr u := by
      unfold linkTargetRelStr
      rw [hresolve, hnroot, hu, relTo_append]
    have hsl : slashify (pathStr u) = pathStr u :=
      slashify_of_no_backslash (not_mem_pathStr (by decide) (by decide)
        (fun s hs => (hwfu s hs).2.2.1))
    have h0 : pathStr u ≠ "index.md" := by
      intro h
      cases u with
      | nil => exact (by decide : pathStr ([] : RelPath) ≠ "index.md") h
      | cons w ws =>
        have heq := pathStr_inj
          ⟨by simp, fun s hs => ⟨(hwfu s hs).1, (hwfu s hs).2.1⟩⟩
          (by decide : wfPath ["index.md"]) h
        rw [heq] at hu
        have hgl := congrArg List.getLast? hu
        rw [List.getLast?_concat, List.getLast?_concat] at hgl
        exact (by decide : ("b.md" : String) ≠ "index.md") (Option.some.inj hgl)
    have h2 : pathStr u ≠ "x/a.md" := by
      intro h
      cases u with
      | nil => exact (by decide : pathStr ([] : RelPath) ≠ "x/a.md") h
      | cons w ws =>
        have heq := pathStr_inj
          ⟨by simp, fun s hs => ⟨(hwfu s hs).1, (hwfu s hs).2.1⟩⟩
          (by decide : wfPath ["x", "a.md"]) h
        rw [heq] at hu
        have hassoc : rootAbs ++ [("x" : String), "a.md"] =
            (rootAbs ++ ["x"]) ++ ["a.md"] := by simp
        rw [hassoc] at hu
        have hgl := congrArg List.getLast? hu
        rw [List.getLast?_concat, List.getLast?_concat] at hgl
        exact (by decide : ("b.md" : String) ≠ "a.md") (Option.some.inj hgl)
    exact findAB_of_ne cwd rootAbs (pathStr u) hrel hsl h0 h2
  · have hrel : linkTargetRelStr cwd rootAbs ["x"] "../b.md" = "x/../b.md" := by
      unfold linkTargetRelStr
      rw [hresolve, hnroot]
      unfold relTo
      rw [if_neg hpre]
      rfl
    exact findAB_of_ne cwd rootAbs "x/../b.md" hrel rfl (by decide) (by decide)

/-- C2 (amended): the resolver is two-tier — a path-based match computed
by resolving the link against the containing document's directory
relative to the process working directory (so that, run from the input
root, plain relative links are resolved inside the document tree), then a
base-name fallback; when both tiers fail the original anchor is returned
unchanged with a warning; and the `x/a.md → ../b.md → b.md` round trip
finds B's ordinal whatever the working directory is. -/
theorem linkResolver_two_tier :
    (∀ cwd rootAbs : List String, wfAbs cwd → wfAbs rootAbs →
      findFileIndexByPath cwd rootAbs
        [["index.md"], ["b.md"], ["x", "a.md"]] 2 "../b.md" = some 1) ∧
    (∀ (cwd rootAbs : List String) (files : List RelPath) (i : Nat)
        (href text : String),
      findFileIndexByPath cwd rootAbs files i href = none →
      replaceLink cwd rootAbs files i href text =
        (originalAnchorHtml href text,
          ["Warning: Could not resolve link " ++ href ++
            " in file index " ++ Nat.repr i])) ∧
    (∀ (cwd rootAbs : List String) (files : List RelPath) (i : Nat)
        (href : String),
      pathTierIdx cwd rootAbs files i href = none →
      findFileIndexByPath cwd rootAbs files i href = nameTierIdx files href) ∧
    (∀ (rootAbs : List String) (files : List RelPath) (i : Nat) (href : String),
      wfAbs rootAbs → (∀ p ∈ files, wfFile p) → i < files.length →
      strIsAbs href = false → pyStartsWith "./".data href.data = false →
      pyStartsWith "../".data href.data = false → ('\\' : Char) ∉ href.data →
      pathParts href ≠ [] → (∀ s ∈ pathParts href, s ≠ "..") →
      pathTierIdx rootAbs rootAbs files i href =
        firstIdxFrom
          (fun f => f == (files.getD i []).dropLast ++ pathParts href)
          0 files) := by
  refine ⟨findFileIndexByPath_roundTrip, ?_, ?_, pathTier_in_tree⟩
  · intro cwd rootAbs files i href text hnone
    unfold replaceLink
    rw [hnone]
  · intro cwd rootAbs files i href hnone
    unfold findFileIndexByPath
    rw [hnone]

/-- C2 counterexample: resolution is not performed purely within the
document tree — it depends on the process working directory.  With the
same input (index.md linking `c.md`; documents at `sub/c.md` and `c.md`),
running with cwd equal to `root/sub` resolves the link to `sub/c.md`
(ordinal 1), while resolution relative to the containing document's
directory inside the tree yields `c.md` (ordinal 2, obtained when cwd is
the input root). -/
theorem findFileIndexByPath_cwd_dependent :
    findFileIndexByPath ["r", "sub"] ["r"]
      [["index.md"], ["sub", "c.md"], ["c.md"]] 0 "c.md" = some 1 ∧
    findFileIndexByPath ["r"] ["r"]
      [["index.md"], ["sub", "c.md"], ["c.md"]] 0 "c.md" = some 2 :=
  ⟨rfl, rfl⟩

/-- Witness for the amended C2 theorem at concrete inputs. -/
theorem linkResolver_two_tier_witness :
    findFileIndexByPath ["h"] ["h", "d"]
      [["index.md"], ["b.md"], ["x", "a.md"]] 2 "../b.md" = some 1 ∧
    replaceLink ["h"] ["h"] [["index.md"]] 0 "nope.md" "t" =
      (originalAnchorHtml "nope.md" "t",
        ["Warning: Could not resolve link nope.md in file index 0"]) ∧
    findFileIndexByPath ["h"] ["h"] [["index.md"]] 0 "zzz.md" =
      nameTierIdx [["index.md"]] "zzz.md" ∧
    pathTierIdx ["h"] ["h"] [["index.md"], ["sub", "c.md"]] 0 "sub/c.md" =
      firstIdxFrom
        (fun f => f ==
          (([["index.md"], ["sub", "c.md"]] : List RelPath).getD 0
            []).dropLast ++ pathParts "sub/c.md")
        0 [["index.md"], ["sub", "c.md"]] :=
  ⟨linkResolver_two_tier.1 ["h"] ["h", "d"] (by decide) (by decide),
   linkResolver_two_tier.2.1 ["h"] ["h"] [["index.md"]] 0 "nope.md" "t" rfl,
   linkResolver_two_tier.2.2.1 ["h"] ["h"] [["index.md"]] 0 "zzz.md" rfl,
   linkResolver_two_tier.2.2.2 ["h"] [["index.md"], ["sub", "c.md"]] 0 "sub/c.md"
     (by decide) (by decide) (by decide) rfl rfl rfl (by decide) (by decide)
     (by decide)⟩

/-! ### Navigation tree (`generate_navigation` cli.py 244-284 and
`_build_folder_navigation` cli.py 286-322)

The nested `folder_tree` dict is modelled by `DirTree`: a node holds its
`'files'` bucket (ordinal, stem pairs, insertion-ordered) and its folder
entries (name, subtree pairs, key-insertion-ordered); the whole tree's
root node holds the `'root'` bucket.  Folders literally named `files` or
`root` are not modelled: in the Python dict they collide with those
bookkeeping keys. -/

theorem asString_append (a b : List Char) :
    (a ++ b).asString = a.asString ++ b.asString := by
  apply String.toList_inj.mp
  show ((a ++ b).asString).data = (a.asString ++ b.asString).data
  rw [data_asString, String.data_append, data_asString, data_asString]

theorem usJoin_nil : usJoin [] = "" := rfl

theorem usJoin_singleton (s : String) : usJoin [s] = s := by
  unfold usJoin
  show (joinCh '_' [s.data]).asString = s
  unfold joinCh
  exact String.asString_toList s

theorem usJoin_ne_empty {l : List String} (hl : l ≠ [])
    (h : ∀ s ∈ l, s ≠ "") : usJoin l ≠ "" := by
  cases l with
  | nil => exact absurd rfl hl
  | cons a as =>
    unfold usJoin
    intro hcontra
    have hdata := congrArg String.data hcontra
    rw [data_asString] at hdata
    have hlen := congrArg List.length hdata
    have hane : a.data ≠ [] := by
      intro hn
      exact h a (List.mem_cons_self a as) (String.toList_inj.mp (by simpa using hn))
    cases as with
    | nil =>
      simp only [List.map_cons, List.map_nil, joinCh] at hdata
      exact hane hdata
    | cons b bs =>
      simp only [List.map_cons, joinCh, List.length_append, List.length_cons] at hlen
      simp at hlen

theorem joinCh_append_singleton (c : Char) (x : List Char) :
    ∀ A : List (List Char), A ≠ [] →
      joinCh c (A ++ [x]) = joinCh c A ++ c :: x := by
  intro A
  induction A with
  | nil => intro h; exact absurd rfl h
  | cons a as ih =>
    intro _
    cases as with
    | nil => simp [joinCh]
    | cons b bs =>
      have h2 := ih (by simp)
      simp only [List.cons_append, joinCh, List.append_eq] at h2 ⊢
      rw [h2]
      simp

theorem usJoin_append_singleton {l : List String} (hl : l ≠ []) (s : String) :
    usJoin (l ++ [s]) = usJoin l ++ "_" ++ s := by
  unfold usJoin
  rw [List.map_append]
  simp only [List.map_cons, List.map_nil]
  rw [joinCh_append_singleton '_' s.data (l.map String.data) (by simpa using hl)]
  rw [show (joinCh '_' (l.map String.data) ++ '_' :: s.data) =
    (joinCh '_' (l.map String.data) ++ ['_'] ++ s.data) by simp]
  rw [asString_append, asString_append]
  have h1 : (['_'] : List Char).asString = "_" := rfl
  rw [h1]
  rw [show s.data.asString = s from String.asString_toList s]

theorem pyReplace_noop {a b : Char} {s : String} (h : a ∉ s.data) :
    pyReplace a b s = s := by
  unfold pyReplace
  rw [map_noop s.data (fun c hc => by
    have : c ≠ a := fun hc' => h (hc' ▸ hc)
    simp [this])]

theorem not_mem_usJoin {c : Char} (hcs : c ≠ '_') {l : List String}
    (h : ∀ s ∈ l, c ∉ s.data) : c ∉ (usJoin l).data := by
  unfold usJoin
  rw [data_asString]
  exact joinCh_not_mem hcs _ (fun t ht => by
    obtain ⟨s, hs, rfl⟩ := List.mem_map.mp ht
    exact h s hs)

theorem mkFolderId_usJoin {anc : List String} {name : String}
    (hanc : ∀ s ∈ anc, navPart s) (hname : navPart name) :
    mkFolderId (usJoin anc) name = usJoin (anc ++ [name]) := by
  unfold mkFolderId
  cases anc with
  | nil =>
    rw [if_pos usJoin_nil]
    rw [pyReplace_noop hname.2.2.1, pyReplace_noop hname.2.2.2.1]
    rw [List.nil_append]
    exact (usJoin_singleton name).symm
  | cons a as =>
    have hfree : ∀ c, c ≠ '_' → (∀ s ∈ a :: as, c ∉ s.data) → c ∉ name.data →
        c ∉ (usJoin (a :: as) ++ "_" ++ name).data := by
      intro c hc hancc hnamec
      simp only [String.data_append]
      intro hmem
      rcases List.mem_append.mp hmem with h' | h'
      · rcases List.mem_append.mp h' with h'' | h''
        · exact not_mem_usJoin hc hancc h''
        · exact hc (List.mem_singleton.mp h'')
      · exact hnamec h'
    rw [if_neg (usJoin_ne_empty (by simp) (fun s hs => (hanc s hs).1))]
    rw [usJoin_append_singleton (by simp)]
    rw [pyReplace_noop (hfree '/' (by decide)
        (fun s hs => (hanc s hs).2.2.1) hname.2.2.1),
      pyReplace_noop (hfree '\\' (by decide)
        (fun s hs => (hanc s hs).2.2.2.1) hname.2.2.2.1)]

theorem navFolderIds_append (a b : List NavItem) :
    navFolderIds (a ++ b) = navFolderIds a ++ navFolderIds b := by
  unfold navFolderIds
  rw [List.filterMap_append]

theorem navFolderIds_nil : navFolderIds [] = [] := rfl

theorem navFolderIds_header_cons (i n : String) (rest : List NavItem) :
    navFolderIds (NavItem.folderHeader i n :: rest) = i :: navFolderIds rest := rfl

theorem navFolderIds_end_cons (rest : List NavItem) :
    navFolderIds (NavItem.folderEnd :: rest) = navFolderIds rest := rfl

theorem navFolderIds_link_cons (i : Nat) (t : String) (rest : List NavItem) :
    navFolderIds (NavItem.link i t :: rest) = navFolderIds rest := rfl

theorem navFolderIds_links (fs : List (Nat × String)) :
    navFolderIds (fs.map (fun e => NavItem.link e.1 (displayName e.2))) = [] := by
  unfold navFolderIds
  rw [List.filterMap_map]
  exact List.filterMap_eq_nil_iff.mpr (fun e _ => rfl)

theorem navIds_buildFolderNav : ∀ (anc : List String) (subs : List (String × DirTree)),
    subsOk subs → (∀ s ∈ anc, navPart s) →
    navFolderIds (buildFolderNav (usJoin anc) subs) =
      (collectChains anc subs).map usJoin := by
  intro anc subs
  induction anc, subs using collectChains.induct with
  | case1 anc =>
    intro _ _
    simp [buildFolderNav, collectChains, navFolderIds]
  | case2 anc name fs subs rest ih1 ih2 =>
    intro hok hanc
    simp only [subsOk] at hok
    obtain ⟨hname, hkeys, hsubs, hrest⟩ := hok
    have hanc' : ∀ s ∈ anc ++ [name], navPart s := by
      intro s hs
      rcases List.mem_append.mp hs with h | h
      · exact hanc s h
      · rw [List.mem_singleton.mp h]; exact hname
    simp only [buildFolderNav, collectChains, List.cons_append]
    rw [if_neg hname.2.2.2.2.2]
    simp only [List.cons_append, navFolderIds_header_cons, navFolderIds_append,
      navFolderIds_links, navFolderIds_end_cons, navFolderIds_nil,
      List.nil_append, List.append_nil]
    rw [mkFolderId_usJoin hanc hname]
    rw [ih1 hsubs hanc', ih2 hrest hanc]
    simp

theorem collectChains_shape : ∀ anc subs, ∀ ch ∈ collectChains anc subs,
    ∃ d suffix, ch = anc ++ d :: suffix ∧ d ∈ subs.map Prod.fst := by
  intro anc subs
  induction anc, subs using collectChains.induct with
  | case1 anc => intro ch hch; simp [collectChains] at hch
  | case2 anc name fs subs rest ih1 ih2 =>
    intro ch hch
    simp only [collectChains, List.mem_cons, List.mem_append] at hch
    rcases hch with h | h | h
    · exact ⟨name, [], by simpa using h, by simp⟩
    · obtain ⟨d, suffix, heq, _⟩ := ih1 ch h
      exact ⟨name, d :: suffix, by simpa [List.append_assoc] using heq, by simp⟩
    · obtain ⟨d, suffix, heq, hmem⟩ := ih2 ch h
      exact ⟨d, suffix, heq, by
        simp only [List.map_cons, List.mem_cons]
        exact Or.inr hmem⟩

theorem collectChains_names : ∀ anc subs, subsOk subs → (∀ s ∈ anc, navPart s) →
    ∀ ch ∈ collectChains anc subs, ch ≠ [] ∧ ∀ s ∈ ch, navPart s := by
  intro anc subs
  induction anc, subs using collectChains.induct with
  | case1 anc => intro _ _ ch hch; simp [collectChains] at hch
  | case2 anc name fs subs rest ih1 ih2 =>
    intro hok hanc
    simp only [subsOk] at hok
    obtain ⟨hname, hkeys, hsubs, hrest⟩ := hok
    have hanc' : ∀ s ∈ anc ++ [name], navPart s := by
      intro s hs
      rcases List.mem_append.mp hs with h | h
      · exact hanc s h
      · rw [List.mem_singleton.mp h]; exact hname
    intro ch hch
    simp only [collectChains, List.mem_cons, List.mem_append] at hch
    rcases hch with h | h | h
    · subst h
      exact ⟨by simp, hanc'⟩
    · exact ih1 hsubs hanc' ch h
    · exact ih2 hrest hanc ch h

theorem collectChains_nodup : ∀ anc subs, subsOk subs →
    (collectChains anc subs).Nodup := by
  intro anc subs
  induction anc, subs using collectChains.induct with
  | case1 anc => intro _; simp [collectChains]
  | case2 anc name fs subs rest ih1 ih2 =>
    intro hok
    simp only [subsOk] at hok
    obtain ⟨hname, hkeys, hsubs, hrest⟩ := hok
    simp only [collectChains]
    rw [List.nodup_cons]
    constructor
    · intro hmem
      rcases List.mem_append.mp hmem with h | h
      · obtain ⟨d, suffix, heq, _⟩ := collectChains_shape (anc ++ [name]) subs _ h
        have := congrArg List.length heq
        simp at this
      · obtain ⟨d, suffix, heq, hmem'⟩ := collectChains_shape anc rest _ h
        have := List.append_cancel_left heq
        injection this with h1 h2
        obtain ⟨q, hq, hq1⟩ := List.mem_map.mp hmem'
        exact hkeys q hq (by rw [hq1, h1])
    · refine List.Nodup.append (ih1 hsubs) (ih2 hrest) ?_
      intro ch hch1 hch2
      obtain ⟨d1, s1, he1, _⟩ := collectChains_shape (anc ++ [name]) subs ch hch1
      obtain ⟨d2, s2, he2, hm2⟩ := collectChains_shape anc rest ch hch2
      rw [he1] at he2
      rw [List.append_assoc] at he2
      have := List.append_cancel_left he2
      injection this with h1 h2
      obtain ⟨q, hq, hq1⟩ := List.mem_map.mp hm2
      exact hkeys q hq (by rw [hq1, ← h1])

theorem usJoin_inj {l1 l2 : List String}
    (h1 : ∀ s ∈ l1, navPart s) (h2 : ∀ s ∈ l2, navPart s)
    (h : usJoin l1 = usJoin l2) : l1 = l2 := by
  unfold usJoin at h
  have hjoin := List.asString_inj.mp h
  have hmaps := joinCh_inj '_' _ _
    (by
      intro l hl
      obtain ⟨s, hs, rfl⟩ := List.mem_map.mp hl
      refine ⟨fun hnil => (h1 s hs).1 (String.toList_inj.mp (by simpa using hnil)),
        (h1 s hs).2.1⟩)
    (by
      intro l hl
      obtain ⟨s, hs, rfl⟩ := List.mem_map.mp hl
      refine ⟨fun hnil => (h2 s hs).1 (String.toList_inj.mp (by simpa using hnil)),
        (h2 s hs).2.1⟩)
    hjoin
  exact List.map_injective_iff.mpr (fun a b hab => String.toList_inj.mp hab) hmaps

theorem updAssoc_keys (d : String) (f : DirTree → DirTree) (dflt : DirTree) :
    ∀ subs : List (String × DirTree),
      (updAssoc d f dflt subs).map Prod.fst = subs.map Prod.fst ∨
      (updAssoc d f dflt subs).map Prod.fst = subs.map Prod.fst ++ [d] := by
  intro subs
  induction subs with
  | nil => right; rfl
  | cons qt rest ih =>
    obtain ⟨q, t⟩ := qt
    by_cases hq : q = d
    · left
      simp [updAssoc, hq]
    · simp only [updAssoc, if_neg hq, List.map_cons]
      rcases ih with h | h
      · left; rw [h]
      · right; rw [h]; rfl

theorem updAssoc_subsOk (d : String) (f : DirTree → DirTree) (dflt : DirTree)
    (hd : navPart d) (hdflt : treeOk dflt)
    (hf : ∀ t, treeOk t → treeOk (f t)) :
    ∀ subs, subsOk subs → subsOk (updAssoc d f dflt subs) := by
  intro subs
  induction subs with
  | nil =>
    intro _
    cases dflt with
    | node dfs dsubs =>
      simp only [updAssoc, subsOk]
      exact ⟨hd, by simp, hdflt, trivial⟩
  | cons qt rest ih =>
    obtain ⟨q, t⟩ := qt
    cases t with
    | node qfs qsubs =>
      intro hok
      simp only [subsOk] at hok
      obtain ⟨hq, hkeys, hqsubs, hrest⟩ := hok
      by_cases hqd : q = d
      · simp only [updAssoc, if_pos hqd]
        cases hft : f (DirTree.node qfs qsubs) with
        | node rfs rsubs =>
          simp only [subsOk]
          have := hf (DirTree.node qfs qsubs) hqsubs
          rw [hft] at this
          exact ⟨hq, hkeys, this, hrest⟩
      · simp only [updAssoc, if_neg hqd]
        simp only [subsOk]
        refine ⟨hq, ?_, hqsubs, ih hrest⟩
        intro p hp
        have hpkey : p.1 ∈ (updAssoc d f dflt rest).map Prod.fst :=
          List.mem_map.mpr ⟨p, hp, rfl⟩
        rcases updAssoc_keys d f dflt rest with h | h
        · rw [h] at hpkey
          obtain ⟨x, hx, hx1⟩ := List.mem_map.mp hpkey
          exact hx1 ▸ hkeys x hx
        · rw [h] at hpkey
          rcases List.mem_append.mp hpkey with h' | h'
          · obtain ⟨x, hx, hx1⟩ := List.mem_map.mp h'
            exact hx1 ▸ hkeys x hx
          · rw [List.mem_singleton.mp h']
            exact fun hcontra => hqd hcontra.symm

theorem insertTree_treeOk : ∀ (parts : List String) (t : DirTree)
    (e : Nat × String), (∀ s ∈ parts, navPart s) → treeOk t →
    treeOk (insertTree t parts e) := by
  intro parts
  induction parts with
  | nil =>
    intro t e _ ht
    cases t with
    | node fs subs => exact ht
  | cons d ds ih =>
    intro t e hparts ht
    cases t with
    | node fs subs =>
      simp only [insertTree, treeOk]
      apply updAssoc_subsOk d _ _ (hparts d (List.mem_cons_self d ds))
      · exact ih (DirTree.node [] []) e
          (fun s hs => hparts s (List.mem_cons.mpr (Or.inr hs)))
          (by simp [treeOk, subsOk])
      · intro t' ht'
        exact ih t' e (fun s hs => hparts s (List.mem_cons.mpr (Or.inr hs))) ht'
      · exact ht

theorem buildNavTree_treeOk (files : List RelPath)
    (h : ∀ p ∈ files, ∀ s ∈ p.dropLast, navPart s) :
    treeOk (buildNavTree files) := by
  unfold buildNavTree
  have hgen : ∀ (entries : List (Nat × RelPath)) (t : DirTree),
      (∀ x ∈ entries, ∀ s ∈ x.2.dropLast, navPart s) → treeOk t →
      treeOk (entries.foldl
        (fun t ip => insertTree t ip.2.dropLast (ip.1, pyStem (fileName ip.2))) t) := by
    intro entries
    induction entries with
    | nil => intro t _ ht; exact ht
    | cons x xs ih =>
      intro t hx ht
      simp only [List.foldl_cons]
      exact ih _ (fun y hy => hx y (List.mem_cons.mpr (Or.inr hy)))
        (insertTree_treeOk _ t _ (hx x (List.mem_cons_self x xs)) ht)
  apply hgen
  · intro x hx s hs
    have hx2 : x.2 ∈ files := by
      have := List.mem_enum_iff_getElem?.mp hx
      exact List.getElem?_mem this
    exact h x.2 hx2 s hs
  · simp [treeOk, subsOk]

/-- C5 (amended): the navigation-tree builder assigns identifiers that are
unique across the whole tree, provided every folder name (every ancestor
component of a document; file names are unconstrained) is nonempty and
free of the underscore join character, of path separators, and of the
dict bookkeeping names `files`/`root`; the identifier of a folder is the
underscore-join of its full ancestor chain. -/
theorem navFolderIds_nodup (files : List RelPath)
    (h : ∀ p ∈ files, ∀ s ∈ p.dropLast, navPart s) :
    (navFolderIds (generateNavigation files)).Nodup := by
  unfold generateNavigation
  have htree := buildNavTree_treeOk files h
  cases hb : buildNavTree files with
  | node rootFs subs =>
    rw [hb] at htree
    simp only [treeOk] at htree
    rw [navFolderIds_append, navFolderIds_links]
    rw [List.nil_append]
    rw [show ("" : String) = usJoin [] from rfl]
    rw [navIds_buildFolderNav [] subs htree (by simp)]
    apply List.Nodup.map_on
    · intro x hx y hy hxy
      exact usJoin_inj (collectChains_names [] subs htree (by simp) x hx).2
        (collectChains_names [] subs htree (by simp) y hy).2 hxy
    · exact collectChains_nodup [] subs htree

/-- C5 counterexample: a folder named `a_b` and a folder `b` nested under
a folder `a` receive the same identifier `a_b`, because the identifier
joins the ancestor chain with `_`, a character that may itself occur in
folder names. -/
theorem navFolderIds_collision :
    navFolderIds (generateNavigation
      [["index.md"], ["a_b", "f.md"], ["a", "b", "g.md"]]) =
      ["a_b", "a", "a_b"] ∧
    ¬ (["a_b", "a", "a_b"] : List String).Nodup := by
  constructor
  · show navFolderIds (generateNavigation _) = _
    have hb : buildNavTree [["index.md"], ["a_b", "f.md"], ["a", "b", "g.md"]] =
        .node [(0, "index")]
          [("a_b", .node [(1, "f")] []),
           ("a", .node [] [("b", .node [(2, "g")] [])])] := rfl
    unfold generateNavigation
    rw [hb]
    simp [buildFolderNav, navFolderIds, mkFolderId, pyReplace]
  · decide

/-- Witness for the amended C5 theorem at a concrete tree. -/
theorem navFolderIds_nodup_witness :
    (navFolderIds (generateNavigation
      [["index.md"], ["a", "docs", "user_guide.md"],
        ["b", "docs", "g.md"]])).Nodup :=
  navFolderIds_nodup
    [["index.md"], ["a", "docs", "user_guide.md"], ["b", "docs", "g.md"]]
    (by decide)

/-! ### The document pipeline (`generate_html_content` cli.py 946-1013,
`convert_markdown_to_html` cli.py 186-211, `generate_toc` cli.py 324-344,
`wrap_tables` cli.py 213-227, `convert` cli.py 2146-2167)

The external markdown renderer is a parameter producing a list of
`HtmlAtom`s — the HTML fragments the post-processing regexes of the
converter distinguish: plain anchors `<a href="H">T</a>`, headings
carrying an `id` attribute, tables, and everything else (`raw`). -/

theorem lookupBucket_tagMapAdd (m : List (String × List TagEntry))
    (t t' : String) (e : TagEntry) :
    lookupBucket (tagMapAdd m t e) t' =
      if t' = t then lookupBucket m t' ++ [e] else lookupBucket m t' := by
  induction m with
  | nil =>
    by_cases h : t' = t
    · subst h; simp [tagMapAdd, lookupBucket]
    · have h2 : ¬t = t' := fun hh => h hh.symm
      simp [tagMapAdd, lookupBucket, h, h2]
  | cons b rest ih =>
    by_cases hb : b.1 = t
    · simp only [tagMapAdd, if_pos hb, lookupBucket]
      by_cases h' : b.1 = t'
      · have htt : t' = t := h'.symm.trans hb
        rw [if_pos h', if_pos h', if_pos htt]
      · have htt : ¬t' = t := fun hh => h' (hb.trans hh.symm)
        rw [if_neg h', if_neg h', if_neg htt]
    · simp only [tagMapAdd, if_neg hb, lookupBucket]
      by_cases h' : b.1 = t'
      · have htt : ¬t' = t := fun hh => hb (h'.trans hh)
        rw [if_pos h', if_neg htt, if_pos h']
      · rw [if_neg h', ih, if_neg h']

theorem lookupBucket_foldl_tagMapAdd (e : TagEntry) :
    ∀ (tags : List String) (m : List (String × List TagEntry)) (t : String),
      lookupBucket (tags.foldl (fun m x => tagMapAdd m x e) m) t =
        lookupBucket m t ++ (tags.filter (fun x => x = t)).map (fun _ => e) := by
  intro tags
  induction tags with
  | nil => intro m t; simp
  | cons x xs ih =>
    intro m t
    rw [List.foldl_cons, ih, lookupBucket_tagMapAdd]
    by_cases h : t = x
    · rw [if_pos h]
      have hx : x = t := h.symm
      simp [List.filter_cons, hx]
    · rw [if_neg h]
      have hx : ¬(x = t) := fun hh => h hh.symm
      simp [List.filter_cons, hx]

theorem lookupBucket_addDocTags (m : List (String × List TagEntry))
    (tags : List String) (e : TagEntry) (t : String) :
    lookupBucket (addDocTags m tags e) t =
      lookupBucket m t ++ (tags.filter (fun x => x = t)).map (fun _ => e) := by
  unfold addDocTags
  exact lookupBucket_foldl_tagMapAdd e tags m t

theorem keys_tagMapAdd (m : List (String × List TagEntry)) (t : String)
    (e : TagEntry) :
    (tagMapAdd m t e).map Prod.fst =
      if t ∈ m.map Prod.fst then m.map Prod.fst else m.map Prod.fst ++ [t] := by
  induction m with
  | nil => simp [tagMapAdd]
  | cons b rest ih =>
    by_cases hb : b.1 = t
    · simp only [tagMapAdd, if_pos hb, List.map_cons]
      rw [if_pos]
      exact List.mem_cons.mpr (Or.inl hb.symm)
    · simp only [tagMapAdd, if_pos, List.map_cons, if_neg hb, ih]
      have hmem : t ∈ b.1 :: rest.map Prod.fst ↔ t ∈ rest.map Prod.fst := by
        constructor
        · intro hm
          cases List.mem_cons.mp hm with
          | inl h1 => exact absurd h1.symm hb
          | inr h2 => exact h2
        · exact fun hm => List.mem_cons.mpr (Or.inr hm)
      by_cases ht : t ∈ rest.map Prod.fst
      · rw [if_pos ht, if_pos (hmem.mpr ht)]
      · rw [if_neg ht, if_neg (fun hm => ht (hmem.mp hm))]
        simp

theorem keys_foldl_tagMapAdd (e : TagEntry) :
    ∀ (tags : List String) (m : List (String × List TagEntry)),
      ((tags.foldl (fun m x => tagMapAdd m x e) m)).map Prod.fst =
        tags.foldl (fun ks x => if x ∈ ks then ks else ks ++ [x])
          (m.map Prod.fst) := by
  intro tags
  induction tags with
  | nil => intro m; rfl
  | cons x xs ih =>
    intro m
    rw [List.foldl_cons, ih, List.foldl_cons, keys_tagMapAdd]

theorem keys_addDocTags (m : List (String × List TagEntry))
    (tags : List String) (e : TagEntry) :
    (addDocTags m tags e).map Prod.fst =
      tags.foldl (fun ks x => if x ∈ ks then ks else ks ++ [x])
        (m.map Prod.fst) := by
  unfold addDocTags
  exact keys_foldl_tagMapAdd e tags m

theorem processDoc_tagMap {yp : YamlParser} {mr : MdRenderer}
    {cwd rootAbs : List String} {entries : List (RelPath × String)}
    {seq : List RelPath} {acc acc' : PipeAcc} {ip : Nat × RelPath}
    (hlist : tagsListOk yp entries ip.2 = true)
    (h : processDoc yp mr cwd rootAbs entries seq acc ip = .ok acc') :
    acc'.2.1 = addDocTags acc.2.1 (specDocTags yp entries ip.2) (entryOf ip) := by
  unfold processDoc at h
  unfold specDocTags
  unfold tagsListOk at hlist
  split at h
  · rename_i hskip
    rw [if_pos hskip]
    cases h
    simp [addDocTags]
  · rename_i hskip
    rw [if_neg hskip]
    split at h
    · rename_i v hv
      rw [hv] at hlist ⊢
      split at h
      · rename_i htr
        split at h
        · rename_i tags htags
          cases h
          cases v with
          | strList l =>
            have hlt : tags = l := (Except.ok.inj htags).symm
            subst hlt
            rfl
          | str s =>
            exfalso
            simp [yamlTruthy] at hlist htr
            exact htr hlist
          | int n => cases htags
        · cases h
      · rename_i htr
        cases h
        cases v with
        | strList l =>
          simp only [yamlTruthy, Bool.not_eq_true, Bool.not_eq_false] at htr
          have hl : l = [] := by simpa using htr
          subst hl
          simp [addDocTags]
        | str s => simp [addDocTags]
        | int n => simp [addDocTags]
    · rename_i hv
      rw [hv]
      cases h
      simp [addDocTags]

theorem bind_cons_eq {α β : Type} (x : α) (xs : List α) (f : α → List β) :
    (x :: xs).bind f = f x ++ xs.bind f := rfl

theorem foldlM_tagMap {yp : YamlParser} {mr : MdRenderer}
    {cwd rootAbs : List String} {entries : List (RelPath × String)}
    {seq : List RelPath} :
    ∀ (L : List (Nat × RelPath)) (acc acc' : PipeAcc),
      (∀ ip ∈ L, tagsListOk yp entries ip.2 = true) →
      L.foldlM (processDoc yp mr cwd rootAbs entries seq) acc = .ok acc' →
      (∀ t, lookupBucket acc'.2.1 t = lookupBucket acc.2.1 t ++
          L.bind (fun ip =>
            ((specDocTags yp entries ip.2).filter (fun x => x = t)).map
              (fun _ => entryOf ip))) ∧
        acc'.2.1.map Prod.fst =
          (L.bind (fun ip => specDocTags yp entries ip.2)).foldl
            (fun ks x => if x ∈ ks then ks else ks ++ [x])
            (acc.2.1.map Prod.fst) := by
  intro L
  induction L with
  | nil =>
    intro acc acc' _ h
    have hae : acc = acc' := Except.ok.inj h
    subst hae
    exact ⟨fun t => by simp, by simp⟩
  | cons ip L ih =>
    intro acc acc' hok h
    rw [List.foldlM_cons] at h
    cases hp : processDoc yp mr cwd rootAbs entries seq acc ip with
    | error e => rw [hp] at h; cases h
    | ok acc1 =>
      rw [hp] at h
      have hstep := processDoc_tagMap (hok ip (List.mem_cons_self ip L)) hp
      have hrest := ih acc1 acc'
        (fun x hx => hok x (List.mem_cons.mpr (Or.inr hx))) h
      constructor
      · intro t
        rw [hrest.1 t, hstep, lookupBucket_addDocTags, bind_cons_eq,
          List.append_assoc]
      · rw [hrest.2, hstep, keys_addDocTags, bind_cons_eq, List.foldl_append]

/-- C9 (corrected). When every document's truthy `tags` value is an actual
list, the produced tag index is exact: each tag's bucket holds one
`{title, ordinal, path}` entry per occurrence of the tag in a document's
frontmatter tag list, in document processing order with no sorting and no
deduplication, and buckets are created in first-sight order. (The list
proviso is necessary: a string-valued `tags` is iterated per character,
creating buckets named after single characters that occur in no document's
tag list.) -/
theorem tagIndex_exact (yp : YamlParser) (mr : MdRenderer)
    (cwd rootAbs : List String) (entries : List (RelPath × String))
    (seq : List RelPath) (acc : PipeAcc)
    (hlist : ∀ p ∈ seq, tagsListOk yp entries p = true)
    (hrun : generateHtmlContent yp mr cwd rootAbs entries seq = .ok acc) :
    (∀ t, lookupBucket acc.2.1 t = specTagBucket yp entries seq t) ∧
      acc.2.1.map Prod.fst =
        dedupFirst (seq.enum.bind (fun ip => specDocTags yp entries ip.2)) := by
  have h := foldlM_tagMap seq.enum ([], [], []) acc
    (fun ip hip =>
      hlist ip.2 (List.getElem?_mem (List.mem_enum_iff_getElem?.mp hip)))
    hrun
  constructor
  · intro t
    rw [h.1 t]
    rfl
  · rw [h.2]
    rfl

/-- C9 counterexample: frontmatter `tags: ab` (a YAML string) is iterated
per character, creating buckets `a` and `b` holding entries although no
document's frontmatter tag list contains these tags: the spec-modelled
bucket for `a` is empty. -/
theorem tagIndex_string_tags :
    Except.map (fun acc => lookupBucket acc.2.1 "a")
        (generateHtmlContent ypInt mrNil ["r"] ["r", "docs"] docsCharTags
          [["index.md"]])
      = .ok [⟨"Index", 0, "index.md"⟩] ∧
    specTagBucket ypInt docsCharTags [["index.md"]] "a" = [] := ⟨rfl, rfl⟩

theorem tagIndex_exact_witness :
    lookupBucket ((generateHtmlContent ypInt mrNil ["r"] ["r", "docs"]
          docsTagged [["index.md"]]).toOption.getD ([], [], [])).2.1 "x"
        = specTagBucket ypInt docsTagged [["index.md"]] "x" ∧
      ((generateHtmlContent ypInt mrNil ["r"] ["r", "docs"]
          docsTagged [["index.md"]]).toOption.getD ([], [], [])).2.1.map Prod.fst
        = dedupFirst ([["index.md"]].enum.bind
            (fun ip => specDocTags ypInt docsTagged ip.2)) :=
  ⟨(tagIndex_exact ypInt mrNil ["r"] ["r", "docs"] docsTagged [["index.md"]]
      _ (by decide) (by rfl)).1 "x",
    (tagIndex_exact ypInt mrNil ["r"] ["r", "docs"] docsTagged [["index.md"]]
      _ (by decide) (by rfl)).2⟩

end AtomWiki
